import Mathlib

/-!
Verification development for the Cloudflare rule reconciliation engine of
`cf_apply.py` (the `synchronize_rules` function and its helpers).

The Python code is shallowly embedded: rules (Python dicts) become the
`Rule` structure, the managed-rule dict becomes an association list built
with last-wins insertion, the two passes of the payload builder become
folds, and the final Cloudflare write is modelled by `SyncOutcome.write`
(`none` exactly when the function returns `False` before reaching the
API call; `some payload` when it calls `client.rulesets.update` with that
payload).
-/

set_option maxHeartbeats 1000000

namespace CfApply

/-- Embeds a formatted Cloudflare rule as produced by
`fetch_formatted_rules_for_zone`: a dict with keys `id`, `description`,
`expression`, `action`, `enabled` and optional `action_parameters`
(kept opaque as a key/value list). Newly created rules have no `id`. -/
structure Rule where
  id : Option String := none
  description : String := ""
  expression : String := ""
  action : String := ""
  enabled : Bool := true
  action_parameters : Option (List (String × String)) := none
deriving DecidableEq, Repr

/-- The characters of `MANAGED_RULE_PREFIX = "Block-Bad-ASNs-Part-"`. -/
def managedRulePrefixChars : List Char := "Block-Bad-ASNs-Part-".toList

/-- The leading run of decimal digits of a character list (what the greedy
regex group `(\d+)` captures). -/
def takeDigits : List Char → List Char
  | [] => []
  | c :: cs => if c.isDigit then c :: takeDigits cs else []

/-- Numeric value of a digit string, as computed by Python's `int`. -/
def digitsToNat (ds : List Char) : Nat :=
  ds.foldl (fun a c => 10 * a + (c.toNat - 48)) 0

/-- Strips a literal character-list pattern from the front of a list;
`none` when the list does not start with the pattern. -/
def stripLeading : List Char → List Char → Option (List Char)
  | [], l => some l
  | _ :: _, [] => none
  | p :: ps, c :: cs => if c = p then stripLeading ps cs else none

/-- Embeds `re.match(rf"{MANAGED_RULE_PREFIX}(\d+)", label)` followed by
`int(match.group(1))`: the match is anchored at the start of the label,
requires the literal prefix immediately followed by at least one digit,
and the captured group is the maximal digit run. -/
def parseManagedLabel (label : String) : Option Nat :=
  match stripLeading managedRulePrefixChars label.toList with
  | none => none
  | some rest =>
    match takeDigits rest with
    | [] => none
    | ds => some (digitsToNat ds)

/-- Fuel-indexed decimal rendering; the fuel only bounds the recursion
depth and any fuel above the number of digits gives the same result. -/
def natDigitsAux : Nat → Nat → List Char
  | 0, _ => []
  | fuel + 1, n =>
    if n < 10 then [Char.ofNat (48 + n)]
    else natDigitsAux fuel (n / 10) ++ [Char.ofNat (48 + n % 10)]

/-- Decimal digit characters of a natural number (the rendering used by
the f-string `f"{MANAGED_RULE_PREFIX}{part}"`). -/
def natDigits (n : Nat) : List Char := natDigitsAux (n + 1) n

/-- Python-dict insertion: replace the binding in place when the key is
present, append it otherwise. -/
def dictInsert (m : List (Nat × Rule)) (k : Nat) (v : Rule) : List (Nat × Rule) :=
  if m.any (fun p => p.1 == k) then
    m.map (fun p => if p.1 == k then (k, v) else p)
  else m ++ [(k, v)]

/-- Embeds the `managed_rules_on_cf` dict: one linear pass over the
existing rules, entering every rule whose description parses under the
managed pattern, later entries overwriting earlier ones (`last wins`). -/
def managedRulesOnCf (existing_rules : List Rule) : List (Nat × Rule) :=
  existing_rules.foldl
    (fun m rule =>
      match parseManagedLabel rule.description with
      | some part_number => dictInsert m part_number rule
      | none => m) []

/-- Embeds `new_expressions_map = {i + 1: expr for i, expr in enumerate(new_expressions)}`. -/
def newExpressionsMap (new_expressions : List String) : List (Nat × String) :=
  new_expressions.enum.map (fun p => (p.1 + 1, p.2))

/-- Embeds the `parts_to_update` dict: sequence numbers present in both
maps whose expressions differ, mapped to the new expression. -/
def partsToUpdate (managed : List (Nat × Rule)) (desiredMap : List (Nat × String)) :
    List (Nat × String) :=
  desiredMap.filterMap (fun p =>
    match managed.lookup p.1 with
    | some r => if r.expression = p.2 then none else some p
    | none => none)

/-- Ascending sort, as done by Python's `sorted(list(parts_to_create))`. -/
def sortNat (l : List Nat) : List Nat := List.insertionSort (· ≤ ·) l

/-- State of the first payload-building pass: the payload built so far and
the indices `last_skip_index` / `last_managed_rule_index` (both `-1` until
the corresponding kind of rule is first appended). -/
structure PassState where
  payload : List Rule
  lastSkipIndex : Int
  lastManagedIndex : Int
deriving DecidableEq, Repr

/-- The trailing check of the first-pass loop body: if the payload is
nonempty and its last rule's action is `'skip'`, record its index as
`last_skip_index`. -/
def trackSkip (s : PassState) : PassState :=
  match s.payload.getLast? with
  | some r =>
    if r.action = "skip" then { s with lastSkipIndex := (s.payload.length : Int) - 1 } else s
  | none => s

/-- One iteration of the first pass over the existing rules: drop managed
rules queued for deletion (skipping the rest of the loop body via
`continue`), append managed rules with their expression rewritten when
queued for update, append everything else unchanged, and maintain
`last_managed_rule_index` and `last_skip_index`. -/
def firstPassStep (parts_to_delete : List Nat) (parts_to_update : List (Nat × String))
    (s : PassState) (rule : Rule) : PassState :=
  match parseManagedLabel rule.description with
  | some part_num =>
    if parts_to_delete.contains part_num then s
    else
      let appended :=
        match parts_to_update.lookup part_num with
        | some newExpr => { s with payload := s.payload ++ [{ rule with expression := newExpr }] }
        | none => { s with payload := s.payload ++ [rule] }
      trackSkip { appended with lastManagedIndex := (appended.payload.length : Int) - 1 }
  | none =>
    trackSkip { s with payload := s.payload ++ [rule] }

/-- The whole first pass. -/
def pass1 (parts_to_delete : List Nat) (parts_to_update : List (Nat × String))
    (existing_rules : List Rule) : PassState :=
  existing_rules.foldl (firstPassStep parts_to_delete parts_to_update)
    { payload := [], lastSkipIndex := -1, lastManagedIndex := -1 }

/-- A newly created managed rule, per the dict literal in the creation
loop: description `MANAGED_RULE_PREFIX` + decimal part number, the desired
expression, action `'block'`, enabled. -/
def mkCreatedRule (desiredMap : List (Nat × String)) (part : Nat) : Rule :=
  { id := none
    description := String.mk (managedRulePrefixChars ++ natDigits part)
    expression := (desiredMap.lookup part).getD ""
    action := "block"
    enabled := true
    action_parameters := none }

/-- One iteration of the creation loop: skip the part (recording it, which
models the capacity warning) when the current payload length plus the
already queued count has reached `max_rules`, queue the new rule
otherwise. -/
def createStep (desiredMap : List (Nat × String)) (max_rules payloadLen : Nat)
    (acc : List Rule × List Nat) (part : Nat) : List Rule × List Nat :=
  if max_rules ≤ payloadLen + acc.1.length then (acc.1, acc.2 ++ [part])
  else (acc.1 ++ [mkCreatedRule desiredMap part], acc.2)

/-- The creation loop over the sorted parts to create: returns the queued
`newly_created_rules` and the capacity-skipped part numbers. -/
def createPass (desiredMap : List (Nat × String)) (max_rules payloadLen : Nat)
    (parts : List Nat) : List Rule × List Nat :=
  parts.foldl (createStep desiredMap max_rules payloadLen) ([], [])

/-- Python list-slice insertion
`final_rules_payload[p:p] = newly_created_rules`. -/
def spliceAt (l : List Rule) (p : Nat) (newRules : List Rule) : List Rule :=
  l.take p ++ newRules ++ l.drop p

/-- Observable outcome of `synchronize_rules`: `write = some payload` when
the function reaches `client.rulesets.update` with that payload,
`write = none` when it returns `False` beforehand without any write;
`skipped` records the part numbers whose creation was skipped by the
`max_rules` ceiling. -/
structure SyncOutcome where
  write : Option (List Rule)
  skipped : List Nat
deriving DecidableEq, Repr

/-- The `parts_to_update` dict as computed from the inputs
(`existing_parts.intersection(desired_parts)` with differing expressions). -/
def computedUpdates (existing_rules : List Rule) (desiredMap : List (Nat × String)) :
    List (Nat × String) :=
  partsToUpdate (managedRulesOnCf existing_rules) desiredMap

/-- The `parts_to_create` set, `desired_parts - existing_parts`, in the
ascending order in which the creation loop visits it. -/
def computedCreates (existing_rules : List Rule) (desiredMap : List (Nat × String)) :
    List Nat :=
  sortNat ((desiredMap.map Prod.fst).filter
    (fun k => !((managedRulesOnCf existing_rules).map Prod.fst).contains k))

/-- The `parts_to_delete` set, `existing_parts - desired_parts`. -/
def computedDeletes (existing_rules : List Rule) (desiredMap : List (Nat × String)) :
    List Nat :=
  ((managedRulesOnCf existing_rules).map Prod.fst).filter
    (fun k => !(desiredMap.map Prod.fst).contains k)

/-- The body of `synchronize_rules` over an already-built desired-content
map: computes the managed map and the three difference sets, applies the
update-only filtering and the two early `return False` paths, then builds
the final payload in two passes and issues the write. -/
def synchronizeCore (existing_rules : List Rule) (desiredMap : List (Nat × String))
    (max_rules : Nat) (update_only : Bool) : SyncOutcome :=
  let parts_to_update := computedUpdates existing_rules desiredMap
  if update_only && parts_to_update.isEmpty then { write := none, skipped := [] }
  else
    let parts_to_create :=
      if update_only then [] else computedCreates existing_rules desiredMap
    let parts_to_delete :=
      if update_only then [] else computedDeletes existing_rules desiredMap
    if parts_to_create.isEmpty && parts_to_delete.isEmpty && parts_to_update.isEmpty then
      { write := none, skipped := [] }
    else
      let s := pass1 parts_to_delete parts_to_update existing_rules
      let insertion_base_index := max s.lastSkipIndex s.lastManagedIndex
      if !parts_to_create.isEmpty then
        let created := createPass desiredMap max_rules s.payload.length parts_to_create
        { write := some (spliceAt s.payload (insertion_base_index + 1).toNat created.1)
          skipped := created.2 }
      else
        { write := some s.payload, skipped := [] }

/-- `synchronize_rules` proper: builds `new_expressions_map` from the
1-based enumeration of the expression list and runs the body. -/
def synchronize_rules (existing_rules : List Rule) (new_expressions : List String)
    (max_rules : Nat) (update_only : Bool) : SyncOutcome :=
  synchronizeCore existing_rules (newExpressionsMap new_expressions) max_rules update_only

/-- Sequence numbers of the managed rules of a list, in list order. -/
def managedSeqs (rules : List Rule) : List Nat :=
  rules.filterMap (fun r => parseManagedLabel r.description)

/-- The last rule of a list whose label parses to the given sequence
number (the entry the last-wins dict keeps). -/
def lastManagedWith (k : Nat) (rules : List Rule) : Option Rule :=
  (rules.filter (fun r => parseManagedLabel r.description == some k)).getLast?

/-- Retention test of the first pass: a rule survives the deletion filter
when it is foreign or its sequence number is not queued for deletion. -/
def keepRule (parts_to_delete : List Nat) (r : Rule) : Bool :=
  match parseManagedLabel r.description with
  | some k => !parts_to_delete.contains k
  | none => true

/-- The rules of the original list that survive the deletion filter of the
first pass. -/
def retainedRules (parts_to_delete : List Nat) (l : List Rule) : List Rule :=
  l.filter (keepRule parts_to_delete)

/-- Pointwise form of one first-pass iteration: the rule appended for a
given existing rule (`none` when the rule is dropped by a deletion). -/
def pass1fun (parts_to_delete : List Nat) (parts_to_update : List (Nat × String))
    (rule : Rule) : Option Rule :=
  match parseManagedLabel rule.description with
  | some part_num =>
    if parts_to_delete.contains part_num then none
    else
      match parts_to_update.lookup part_num with
      | some newExpr => some { rule with expression := newExpr }
      | none => some rule
  | none => some rule

/-- Desired-content map starting at a given sequence number; recursion
handle for `newExpressionsMap`. -/
def desiredFrom (i : Nat) : List String → List (Nat × String)
  | [] => []
  | e :: es => (i, e) :: desiredFrom (i + 1) es

/-- A foreign rule fixture used in concrete scenarios. -/
def foreignRule (d : String) : Rule :=
  { description := d, expression := "x", action := "block" }

/-- A foreign anchor fixture, action `'skip'`. -/
def anchorRule (d : String) : Rule :=
  { description := d, expression := "x", action := "skip" }

/-- A managed rule fixture with the given part number and expression. -/
def managedRule (n : Nat) (e : String) : Rule :=
  { description := String.mk (managedRulePrefixChars ++ natDigits n)
    expression := e
    action := "block" }

/-! ### Lemmas about the label parser -/

theorem stripLeading_eq_some (p : List Char) : ∀ l r : List Char,
    stripLeading p l = some r ↔ l = p ++ r := by
  induction p with
  | nil => intro l r; simp [stripLeading]
  | cons c cs ih =>
    intro l r
    cases l with
    | nil => simp [stripLeading]
    | cons d ds =>
      simp only [stripLeading, List.cons_append, List.cons.injEq]
      by_cases h : d = c
      · subst h; simp [ih]
      · simp [h]

theorem takeDigits_of_all_digits : ∀ l : List Char, (∀ c ∈ l, c.isDigit = true) →
    takeDigits l = l := by
  intro l
  induction l with
  | nil => intro _; rfl
  | cons c cs ih =>
    intro h
    simp only [takeDigits, h c (by simp), if_true]
    rw [ih (fun d hd => h d (by simp [hd]))]

theorem takeDigits_append (ds rest : List Char) (hds : ∀ c ∈ ds, c.isDigit = true)
    (hrest : ∀ c cs, rest = c :: cs → c.isDigit = false) :
    takeDigits (ds ++ rest) = ds := by
  induction ds with
  | nil =>
    cases rest with
    | nil => rfl
    | cons c cs => simp [takeDigits, hrest c cs rfl]
  | cons c cs ih =>
    simp only [List.cons_append, takeDigits, hds c (by simp), if_true, List.append_eq]
    rw [ih (fun d hd => hds d (by simp [hd]))]

theorem isDigit_ofNat (d : Nat) (h : d < 10) : (Char.ofNat (48 + d)).isDigit = true := by
  interval_cases d <;> decide

theorem toNat_ofNat_digit (d : Nat) (h : d < 10) : (Char.ofNat (48 + d)).toNat = 48 + d := by
  interval_cases d <;> decide

theorem natDigitsAux_all_digits : ∀ (fuel n : Nat), ∀ c ∈ natDigitsAux fuel n,
    c.isDigit = true := by
  intro fuel
  induction fuel with
  | zero => intro n c hc; cases hc
  | succ fuel ih =>
    intro n c hc
    rw [natDigitsAux] at hc
    by_cases h : n < 10
    · rw [if_pos h] at hc
      simp only [List.mem_singleton] at hc
      subst hc
      exact isDigit_ofNat n h
    · rw [if_neg h] at hc
      rcases List.mem_append.mp hc with h1 | h1
      · exact ih (n / 10) c h1
      · simp only [List.mem_singleton] at h1
        subst h1
        exact isDigit_ofNat (n % 10) (Nat.mod_lt _ (by omega))

theorem natDigits_all_digits (n : Nat) : ∀ c ∈ natDigits n, c.isDigit = true :=
  natDigitsAux_all_digits (n + 1) n

theorem natDigits_ne_nil (n : Nat) : natDigits n ≠ [] := by
  unfold natDigits natDigitsAux
  by_cases h : n < 10
  · rw [if_pos h]
    simp
  · rw [if_neg h]
    simp

theorem foldl_digits_natDigitsAux : ∀ (fuel n : Nat), n < fuel → ∀ a : Nat,
    (natDigitsAux fuel n).foldl (fun a c => 10 * a + (c.toNat - 48)) a
      = a * 10 ^ (natDigitsAux fuel n).length + n := by
  intro fuel
  induction fuel with
  | zero => intro n hn; omega
  | succ fuel ih =>
    intro n hn a
    rw [natDigitsAux]
    by_cases h : n < 10
    · rw [if_pos h]
      simp only [List.foldl_cons, List.foldl_nil, List.length_singleton]
      rw [toNat_ofNat_digit n h]
      omega
    · rw [if_neg h]
      simp only [List.foldl_append, List.foldl_cons, List.foldl_nil,
        List.length_append, List.length_singleton]
      have hlt : n / 10 < fuel := by omega
      rw [ih (n / 10) hlt a]
      rw [toNat_ofNat_digit (n % 10) (Nat.mod_lt _ (by omega))]
      rw [pow_succ]
      have hX : a * (10 ^ (natDigitsAux fuel (n / 10)).length * 10)
          = (a * 10 ^ (natDigitsAux fuel (n / 10)).length) * 10 := by ring
      rw [hX]
      omega

theorem digitsToNat_natDigits (n : Nat) : digitsToNat (natDigits n) = n := by
  have h := foldl_digits_natDigitsAux (n + 1) n (by omega) 0
  simpa [digitsToNat, natDigits] using h

theorem toList_mk (l : List Char) : (String.mk l).toList = l := rfl

theorem parse_prefix_digits (ds rest : List Char) (h1 : ds ≠ [])
    (h2 : ∀ c ∈ ds, c.isDigit = true)
    (h3 : ∀ c cs, rest = c :: cs → c.isDigit = false) :
    parseManagedLabel (String.mk (managedRulePrefixChars ++ (ds ++ rest)))
      = some (digitsToNat ds) := by
  have hstrip : stripLeading managedRulePrefixChars (managedRulePrefixChars ++ (ds ++ rest))
      = some (ds ++ rest) := (stripLeading_eq_some _ _ _).mpr rfl
  simp only [parseManagedLabel, toList_mk, hstrip]
  rw [takeDigits_append ds rest h2 h3]
  cases ds with
  | nil => exact absurd rfl h1
  | cons c cs => rfl

theorem parseManagedLabel_created (k : Nat) :
    parseManagedLabel (String.mk (managedRulePrefixChars ++ natDigits k)) = some k := by
  have h := parse_prefix_digits (natDigits k) [] (natDigits_ne_nil k)
    (natDigits_all_digits k) (by intro c cs hc; cases hc)
  simpa [digitsToNat_natDigits] using h

theorem parse_isSome_iff (label : String) :
    (parseManagedLabel label).isSome = true ↔
      ∃ c cs, label.toList = managedRulePrefixChars ++ (c :: cs) ∧ c.isDigit = true := by
  unfold parseManagedLabel
  cases hstrip : stripLeading managedRulePrefixChars label.toList with
  | none =>
    simp only [Option.isSome_none]
    constructor
    · intro h; cases h
    · rintro ⟨c, cs, hlist, hc⟩
      have h2 : stripLeading managedRulePrefixChars label.toList = some (c :: cs) :=
        (stripLeading_eq_some _ _ _).mpr hlist
      rw [hstrip] at h2
      cases h2
  | some rest =>
    have hlist : label.toList = managedRulePrefixChars ++ rest :=
      (stripLeading_eq_some _ _ _).mp hstrip
    cases rest with
    | nil =>
      simp only [takeDigits, Option.isSome_none]
      constructor
      · intro h; cases h
      · rintro ⟨c, cs, hl2, hc⟩
        rw [hlist] at hl2
        have h4 := List.append_cancel_left hl2
        cases h4
    | cons c cs =>
      by_cases hc : c.isDigit = true
      · simp only [takeDigits, hc, if_true]
        constructor
        · intro _
          exact ⟨c, cs, hlist, hc⟩
        · intro _; rfl
      · simp only [takeDigits, hc, if_false, Bool.false_eq_true]
        constructor
        · intro h; cases h
        · rintro ⟨c2, cs2, hl2, hc2⟩
          rw [hlist] at hl2
          have h4 := List.append_cancel_left hl2
          cases h4
          exact absurd hc2 hc

/-! ### Generic association-list lemmas (Nat keys) -/

theorem lookup_isSome_iff {β : Type} (l : List (Nat × β)) (k : Nat) :
    (l.lookup k).isSome = true ↔ k ∈ l.map Prod.fst := by
  induction l with
  | nil => simp [List.lookup]
  | cons p t ih =>
    obtain ⟨k1, v⟩ := p
    by_cases h : k = k1
    · subst h; simp [List.lookup]
    · have hb : (k == k1) = false := by simp [h]
      simp [List.lookup, hb, ih, h]

theorem lookup_mem {β : Type} (l : List (Nat × β)) (k : Nat) (v : β)
    (h : l.lookup k = some v) : (k, v) ∈ l := by
  induction l with
  | nil => cases h
  | cons p t ih =>
    obtain ⟨k1, v1⟩ := p
    by_cases hk : k = k1
    · subst hk
      simp only [List.lookup, beq_self_eq_true] at h
      cases h
      simp
    · have hb : (k == k1) = false := by simp [hk]
      simp only [List.lookup, hb] at h
      simp [ih h]

theorem lookup_of_mem_nodup {β : Type} (l : List (Nat × β)) (k : Nat) (v : β)
    (hn : (l.map Prod.fst).Nodup) (h : (k, v) ∈ l) : l.lookup k = some v := by
  induction l with
  | nil => cases h
  | cons p t ih =>
    obtain ⟨k1, v1⟩ := p
    simp only [List.map_cons, List.nodup_cons] at hn
    rcases List.mem_cons.mp h with h1 | h1
    · cases h1
      simp [List.lookup]
    · have hk : k ≠ k1 := by
        intro he
        subst he
        exact hn.1 (List.mem_map_of_mem Prod.fst h1)
      have hb : (k == k1) = false := by simp [hk]
      simp only [List.lookup, hb]
      exact ih hn.2 h1

theorem lookup_eq_none_iff {β : Type} (l : List (Nat × β)) (k : Nat) :
    l.lookup k = none ↔ k ∉ l.map Prod.fst := by
  rw [← lookup_isSome_iff]
  cases l.lookup k <;> simp

theorem lookup_append {β : Type} (l1 l2 : List (Nat × β)) (k : Nat) :
    (l1 ++ l2).lookup k = ((l1.lookup k).orElse (fun _ => l2.lookup k)) := by
  induction l1 with
  | nil => simp [List.lookup]
  | cons p t ih =>
    obtain ⟨k1, v1⟩ := p
    by_cases hk : k = k1
    · subst hk
      simp [List.lookup]
    · have hb : (k == k1) = false := by simp [hk]
      simp [List.lookup, hb, ih]

/-! ### The managed-rule dict -/

theorem lookup_map_replace (m : List (Nat × Rule)) (k : Nat) (v : Rule)
    (h : k ∈ m.map Prod.fst) :
    (m.map (fun p => if p.1 == k then (k, v) else p)).lookup k = some v := by
  induction m with
  | nil => simp at h
  | cons p t ih =>
    obtain ⟨k1, v1⟩ := p
    simp only [List.map_cons]
    by_cases hk : k1 = k
    · subst hk
      rw [if_pos (show ((k1, v1).1 == k1) = true by simp)]
      simp [List.lookup]
    · rw [if_neg (show ¬ ((k1, v1).1 == k) = true by simp [hk])]
      have hb2 : (k == k1) = false := by simp [Ne.symm hk]
      simp only [List.lookup, hb2]
      refine ih ?_
      simp only [List.map_cons, List.mem_cons] at h
      rcases h with h | h
      · exact absurd h.symm hk
      · exact h

theorem lookup_map_replace_ne (m : List (Nat × Rule)) (k k2 : Nat) (v : Rule)
    (hk : k2 ≠ k) :
    (m.map (fun p => if p.1 == k then (k, v) else p)).lookup k2 = m.lookup k2 := by
  induction m with
  | nil => simp
  | cons p t ih =>
    obtain ⟨k1, v1⟩ := p
    simp only [List.map_cons]
    by_cases h1 : k1 = k
    · subst h1
      rw [if_pos (show ((k1, v1).1 == k1) = true by simp)]
      have hb2 : (k2 == k1) = false := by simp [hk]
      simp only [List.lookup, hb2, ih]
    · rw [if_neg (show ¬ ((k1, v1).1 == k) = true by simp [h1])]
      by_cases h2 : k2 = k1
      · subst h2
        simp [List.lookup]
      · have hb2 : (k2 == k1) = false := by simp [h2]
        simp only [List.lookup, hb2, ih]

theorem dictInsert_lookup_self (m : List (Nat × Rule)) (k : Nat) (v : Rule) :
    (dictInsert m k v).lookup k = some v := by
  unfold dictInsert
  by_cases h : m.any (fun p => p.1 == k) = true
  · rw [if_pos h]
    refine lookup_map_replace m k v ?_
    rcases List.any_eq_true.mp h with ⟨p, hp, hpk⟩
    have : p.1 = k := by simpa using hpk
    subst this
    exact List.mem_map_of_mem Prod.fst hp
  · rw [if_neg h]
    rw [lookup_append]
    have hnone : m.lookup k = none := by
      rw [lookup_eq_none_iff]
      intro hmem
      rcases List.mem_map.mp hmem with ⟨p, hp, hpk⟩
      exact h (List.any_eq_true.mpr ⟨p, hp, by simp [hpk]⟩)
    simp [hnone, List.lookup]

theorem dictInsert_lookup_ne (m : List (Nat × Rule)) (k k2 : Nat) (v : Rule)
    (hk : k2 ≠ k) : (dictInsert m k v).lookup k2 = m.lookup k2 := by
  unfold dictInsert
  by_cases h : m.any (fun p => p.1 == k) = true
  · rw [if_pos h]
    exact lookup_map_replace_ne m k k2 v hk
  · rw [if_neg h]
    rw [lookup_append]
    have hb : (k2 == k) = false := by simp [hk]
    cases hm : m.lookup k2 <;> simp [List.lookup, hb]

theorem managedRulesOnCf_append_singleton (l : List Rule) (r : Rule) :
    managedRulesOnCf (l ++ [r]) =
      (match parseManagedLabel r.description with
       | some part_number => dictInsert (managedRulesOnCf l) part_number r
       | none => managedRulesOnCf l) := by
  simp [managedRulesOnCf, List.foldl_append]

theorem managedRulesOnCf_lookup (rules : List Rule) (k : Nat) :
    (managedRulesOnCf rules).lookup k = lastManagedWith k rules := by
  induction rules using List.reverseRecOn with
  | nil => rfl
  | append_singleton l r ih =>
    rw [managedRulesOnCf_append_singleton]
    unfold lastManagedWith
    rw [List.filter_append]
    cases hp : parseManagedLabel r.description with
    | none =>
      have hf : List.filter (fun r => parseManagedLabel r.description == some k) [r] = [] := by
        simp [List.filter, hp]
      rw [hf, List.append_nil]
      exact ih
    | some pn =>
      by_cases hpk : pn = k
      · subst hpk
        have hf : List.filter (fun r => parseManagedLabel r.description == some pn) [r] = [r] := by
          simp [List.filter, hp]
        rw [hf, List.getLast?_concat]
        exact dictInsert_lookup_self _ pn r
      · have hf : List.filter (fun r => parseManagedLabel r.description == some k) [r] = [] := by
          simp [List.filter, hp, (show (pn == k) = false by simp [hpk])]
        rw [hf, List.append_nil]
        rw [dictInsert_lookup_ne _ pn k r (Ne.symm hpk)]
        exact ih

theorem mem_managedSeqs_iff (rules : List Rule) (k : Nat) :
    k ∈ managedSeqs rules ↔ ∃ r ∈ rules, parseManagedLabel r.description = some k := by
  simp [managedSeqs, List.mem_filterMap]

theorem lastManagedWith_isSome_iff (rules : List Rule) (k : Nat) :
    (lastManagedWith k rules).isSome = true ↔ k ∈ managedSeqs rules := by
  unfold lastManagedWith
  rw [List.getLast?_isSome, mem_managedSeqs_iff]
  constructor
  · intro h
    rcases List.exists_mem_of_ne_nil _ h with ⟨r, hr⟩
    have := List.of_mem_filter hr
    exact ⟨r, List.mem_of_mem_filter hr, by simpa using this⟩
  · rintro ⟨r, hr, hpr⟩
    intro hnil
    have : r ∈ List.filter (fun r => parseManagedLabel r.description == some k) rules :=
      List.mem_filter.mpr ⟨hr, by simp [hpr]⟩
    rw [hnil] at this
    cases this

theorem managedRulesOnCf_keys_iff (rules : List Rule) (k : Nat) :
    k ∈ (managedRulesOnCf rules).map Prod.fst ↔ k ∈ managedSeqs rules := by
  rw [← lookup_isSome_iff, managedRulesOnCf_lookup, lastManagedWith_isSome_iff]

theorem managedRulesOnCf_lookup_mem (rules : List Rule) (k : Nat) (r : Rule)
    (h : (managedRulesOnCf rules).lookup k = some r) :
    r ∈ rules ∧ parseManagedLabel r.description = some k := by
  rw [managedRulesOnCf_lookup] at h
  unfold lastManagedWith at h
  have hmem : r ∈ List.filter (fun r => parseManagedLabel r.description == some k) rules :=
    List.mem_of_mem_getLast? (by rw [h]; exact Option.mem_def.mpr rfl)
  refine ⟨List.mem_of_mem_filter hmem, ?_⟩
  have := List.of_mem_filter hmem
  simpa using this

/-! ### The desired-content map -/

theorem newExpressionsMap_enumFrom (es : List String) : ∀ i : Nat,
    (List.enumFrom i es).map (fun p => (p.1 + 1, p.2)) = desiredFrom (i + 1) es := by
  induction es with
  | nil => intro i; rfl
  | cons e t ih =>
    intro i
    simp only [List.enumFrom, List.map_cons, desiredFrom]
    rw [ih (i + 1)]

theorem newExpressionsMap_eq (es : List String) :
    newExpressionsMap es = desiredFrom 1 es := by
  unfold newExpressionsMap
  rw [show es.enum = List.enumFrom 0 es from rfl]
  exact newExpressionsMap_enumFrom es 0

theorem desiredFrom_keys_mem (es : List String) : ∀ i k : Nat,
    k ∈ (desiredFrom i es).map Prod.fst ↔ i ≤ k ∧ k < i + es.length := by
  induction es with
  | nil =>
    intro i k
    simp only [desiredFrom, List.map_nil, List.not_mem_nil, List.length_nil, false_iff]
    omega
  | cons e t ih =>
    intro i k
    simp only [desiredFrom, List.map_cons, List.mem_cons, ih (i + 1), List.length_cons]
    omega

theorem desiredFrom_keys_nodup (es : List String) : ∀ i : Nat,
    ((desiredFrom i es).map Prod.fst).Nodup := by
  induction es with
  | nil => intro i; simp [desiredFrom]
  | cons e t ih =>
    intro i
    simp only [desiredFrom, List.map_cons, List.nodup_cons]
    constructor
    · rw [desiredFrom_keys_mem]
      omega
    · exact ih (i + 1)

theorem desiredFrom_mem_lookup (es : List String) (i k : Nat) (e : String)
    (h : (k, e) ∈ desiredFrom i es) : (desiredFrom i es).lookup k = some e :=
  lookup_of_mem_nodup _ k e (desiredFrom_keys_nodup es i) h

/-! ### The difference sets -/

theorem filterMap_keep_sublist {α : Type} (f : α → Option α)
    (hf : ∀ a, f a = none ∨ f a = some a) : ∀ l : List α, List.Sublist (l.filterMap f) l := by
  intro l
  induction l with
  | nil => simp
  | cons a t ih =>
    rcases hf a with h | h
    · rw [List.filterMap_cons_none h]
      exact ih.cons a
    · rw [List.filterMap_cons_some h]
      exact ih.cons₂ a

theorem partsToUpdate_sublist (M : List (Nat × Rule)) (D : List (Nat × String)) :
    List.Sublist (partsToUpdate M D) D := by
  refine filterMap_keep_sublist _ ?_ D
  intro p
  cases hM : M.lookup p.1 with
  | none => left; simp [hM]
  | some r =>
    by_cases hr : r.expression = p.2
    · left; simp [hM, hr]
    · right; simp [hM, hr]

theorem mem_partsToUpdate_iff (M : List (Nat × Rule)) (D : List (Nat × String))
    (p : Nat × String) :
    p ∈ partsToUpdate M D ↔
      p ∈ D ∧ ∃ r, M.lookup p.1 = some r ∧ ¬ r.expression = p.2 := by
  unfold partsToUpdate
  rw [List.mem_filterMap]
  constructor
  · rintro ⟨a, ha, hfa⟩
    split at hfa
    · split at hfa
      · cases hfa
      · cases hfa
        rename_i r hM hr
        exact ⟨ha, r, hM, hr⟩
    · cases hfa
  · rintro ⟨hp, r, hM, hr⟩
    refine ⟨p, hp, ?_⟩
    rw [hM]
    simp [hr]

theorem partsToUpdate_lookup_some_iff (M : List (Nat × Rule)) (D : List (Nat × String))
    (hD : (D.map Prod.fst).Nodup) (k : Nat) (e : String) :
    (partsToUpdate M D).lookup k = some e ↔
      D.lookup k = some e ∧ ∃ r, M.lookup k = some r ∧ ¬ r.expression = e := by
  have hUnodup : ((partsToUpdate M D).map Prod.fst).Nodup :=
    (hD.sublist ((partsToUpdate_sublist M D).map Prod.fst))
  constructor
  · intro h
    have hmem := lookup_mem _ _ _ h
    rcases (mem_partsToUpdate_iff M D (k, e)).mp hmem with ⟨hD2, r, hM, hr⟩
    exact ⟨lookup_of_mem_nodup D k e hD hD2, r, hM, hr⟩
  · rintro ⟨hDk, r, hM, hr⟩
    refine lookup_of_mem_nodup _ k e hUnodup ?_
    exact (mem_partsToUpdate_iff M D (k, e)).mpr ⟨lookup_mem _ _ _ hDk, r, hM, hr⟩

theorem partsToUpdate_lookup_none (M : List (Nat × Rule)) (D : List (Nat × String))
    (k : Nat) (e : String) (r : Rule)
    (hDk : (k, e) ∈ D) (hM : M.lookup k = some r)
    (hnone : (partsToUpdate M D).lookup k = none) : r.expression = e := by
  by_contra hne
  have hmem : (k, e) ∈ partsToUpdate M D :=
    (mem_partsToUpdate_iff M D (k, e)).mpr ⟨hDk, r, hM, hne⟩
  have : k ∈ (partsToUpdate M D).map Prod.fst := List.mem_map_of_mem Prod.fst hmem
  rw [lookup_eq_none_iff] at hnone
  exact hnone this

/-! ### The first payload-building pass -/

theorem trackSkip_payload (s : PassState) : (trackSkip s).payload = s.payload := by
  unfold trackSkip
  split
  · split <;> rfl
  · rfl

theorem firstPassStep_payload (tD : List Nat) (tU : List (Nat × String))
    (s : PassState) (rule : Rule) :
    (firstPassStep tD tU s rule).payload = s.payload ++ (pass1fun tD tU rule).toList := by
  unfold firstPassStep pass1fun
  cases hp : parseManagedLabel rule.description with
  | none => simp [trackSkip_payload]
  | some pn =>
    by_cases hd : pn ∈ tD
    · simp [hp, hd]
    · cases hu : tU.lookup pn <;> simp [hp, hd, hu, trackSkip_payload]

theorem pass1_payload_from (tD : List Nat) (tU : List (Nat × String)) :
    ∀ (l : List Rule) (s : PassState),
      (l.foldl (firstPassStep tD tU) s).payload
        = s.payload ++ l.filterMap (pass1fun tD tU) := by
  intro l
  induction l with
  | nil => intro s; simp
  | cons r t ih =>
    intro s
    rw [List.foldl_cons, ih, firstPassStep_payload]
    cases h : pass1fun tD tU r <;> simp [List.filterMap_cons, h]

theorem pass1_payload (tD : List Nat) (tU : List (Nat × String)) (existing : List Rule) :
    (pass1 tD tU existing).payload = existing.filterMap (pass1fun tD tU) := by
  unfold pass1
  rw [pass1_payload_from]
  rfl

theorem pass1fun_foreign (tD : List Nat) (tU : List (Nat × String)) (r : Rule)
    (hp : parseManagedLabel r.description = none) : pass1fun tD tU r = some r := by
  unfold pass1fun
  rw [hp]

theorem pass1fun_delete (tD : List Nat) (tU : List (Nat × String)) (r : Rule) (k : Nat)
    (hp : parseManagedLabel r.description = some k) (hd : tD.contains k = true) :
    pass1fun tD tU r = none := by
  unfold pass1fun
  simp only [hp]
  rw [if_pos hd]

theorem pass1fun_update (tD : List Nat) (tU : List (Nat × String)) (r : Rule) (k : Nat)
    (e : String) (hp : parseManagedLabel r.description = some k)
    (hd : tD.contains k = false) (hu : tU.lookup k = some e) :
    pass1fun tD tU r = some { r with expression := e } := by
  unfold pass1fun
  simp only [hp]
  rw [if_neg (by rw [hd]; exact Bool.false_ne_true)]
  simp only [hu]

theorem pass1fun_keep (tD : List Nat) (tU : List (Nat × String)) (r : Rule) (k : Nat)
    (hp : parseManagedLabel r.description = some k)
    (hd : tD.contains k = false) (hu : tU.lookup k = none) :
    pass1fun tD tU r = some r := by
  unfold pass1fun
  simp only [hp]
  rw [if_neg (by rw [hd]; exact Bool.false_ne_true)]
  simp only [hu]

theorem pass1fun_some_spec (tD : List Nat) (tU : List (Nat × String)) (r r2 : Rule)
    (h : pass1fun tD tU r = some r2) :
    (parseManagedLabel r.description = none ∧ r2 = r) ∨
      (∃ k, parseManagedLabel r.description = some k ∧ tD.contains k = false ∧
        ((∃ e, tU.lookup k = some e ∧ r2 = { r with expression := e }) ∨
          (tU.lookup k = none ∧ r2 = r))) := by
  unfold pass1fun at h
  cases hp : parseManagedLabel r.description with
  | none =>
    simp only [hp] at h
    cases h
    left
    exact ⟨rfl, rfl⟩
  | some k =>
    simp only [hp] at h
    right
    by_cases hd : tD.contains k = true
    · rw [if_pos hd] at h
      cases h
    · have hd2 : tD.contains k = false := by simpa using hd
      rw [if_neg hd] at h
      refine ⟨k, rfl, hd2, ?_⟩
      cases hu : tU.lookup k with
      | none =>
        simp only [hu] at h
        cases h
        right
        exact ⟨rfl, rfl⟩
      | some e =>
        simp only [hu] at h
        cases h
        left
        exact ⟨e, rfl, rfl⟩

theorem pass1fun_preserves_fields (tD : List Nat) (tU : List (Nat × String)) (r r2 : Rule)
    (h : pass1fun tD tU r = some r2) :
    r2.description = r.description ∧ r2.id = r.id ∧ r2.action = r.action ∧
      r2.enabled = r.enabled ∧ r2.action_parameters = r.action_parameters := by
  rcases pass1fun_some_spec tD tU r r2 h with ⟨_, rfl⟩ | ⟨k, _, _, ⟨e, _, rfl⟩ | ⟨_, rfl⟩⟩ <;>
    exact ⟨rfl, rfl, rfl, rfl, rfl⟩

theorem managedSeqs_nil : managedSeqs [] = [] := rfl

theorem managedSeqs_cons (r : Rule) (t : List Rule) :
    managedSeqs (r :: t) =
      (match parseManagedLabel r.description with
       | some k => k :: managedSeqs t
       | none => managedSeqs t) := by
  unfold managedSeqs
  cases hp : parseManagedLabel r.description <;> simp [List.filterMap_cons, hp]

theorem managedSeqs_append (a b : List Rule) :
    managedSeqs (a ++ b) = managedSeqs a ++ managedSeqs b := by
  simp [managedSeqs, List.filterMap_append]

theorem managedSeqs_filterMap_pass1 (tD : List Nat) (tU : List (Nat × String)) :
    ∀ l : List Rule,
      managedSeqs (l.filterMap (pass1fun tD tU))
        = (managedSeqs l).filter (fun k => !tD.contains k) := by
  intro l
  induction l with
  | nil => rfl
  | cons r t ih =>
    cases hp : parseManagedLabel r.description with
    | none =>
      rw [List.filterMap_cons_some (pass1fun_foreign tD tU r hp)]
      rw [managedSeqs_cons, managedSeqs_cons, hp]
      exact ih
    | some k =>
      by_cases hd : tD.contains k
      · rw [List.filterMap_cons_none (pass1fun_delete tD tU r k hp hd)]
        rw [managedSeqs_cons, hp]
        simp only [List.filter_cons, hd, Bool.not_true, Bool.false_eq_true, if_false]
        exact ih
      · have hd2 : tD.contains k = false := by simpa using hd
        have hstep : ∃ r2, pass1fun tD tU r = some r2 ∧ r2.description = r.description := by
          cases hu : tU.lookup k with
          | none => exact ⟨r, pass1fun_keep tD tU r k hp hd2 hu, rfl⟩
          | some e => exact ⟨{ r with expression := e }, pass1fun_update tD tU r k e hp hd2 hu, rfl⟩
        rcases hstep with ⟨r2, h2, hdesc⟩
        rw [List.filterMap_cons_some h2]
        rw [managedSeqs_cons, managedSeqs_cons, hdesc, hp]
        simp only [List.filter_cons, hd2, Bool.not_false, if_true]
        rw [ih]

theorem filter_foreign_filterMap_pass1 (tD : List Nat) (tU : List (Nat × String)) :
    ∀ l : List Rule,
      (l.filterMap (pass1fun tD tU)).filter (fun r => (parseManagedLabel r.description).isNone)
        = l.filter (fun r => (parseManagedLabel r.description).isNone) := by
  intro l
  induction l with
  | nil => rfl
  | cons r t ih =>
    cases hp : parseManagedLabel r.description with
    | none =>
      rw [List.filterMap_cons_some (pass1fun_foreign tD tU r hp)]
      rw [List.filter_cons, List.filter_cons]
      simp only [hp, Option.isNone_none, if_true]
      rw [ih]
    | some k =>
      by_cases hd : tD.contains k
      · rw [List.filterMap_cons_none (pass1fun_delete tD tU r k hp hd)]
        rw [List.filter_cons]
        simp only [hp, Option.isNone_some, Bool.false_eq_true, if_false]
        exact ih
      · have hd2 : tD.contains k = false := by simpa using hd
        have hstep : ∃ r2, pass1fun tD tU r = some r2 ∧ r2.description = r.description := by
          cases hu : tU.lookup k with
          | none => exact ⟨r, pass1fun_keep tD tU r k hp hd2 hu, rfl⟩
          | some e => exact ⟨{ r with expression := e }, pass1fun_update tD tU r k e hp hd2 hu, rfl⟩
        rcases hstep with ⟨r2, h2, hdesc⟩
        rw [List.filterMap_cons_some h2]
        rw [List.filter_cons, List.filter_cons]
        simp only [hdesc, hp, Option.isNone_some, Bool.false_eq_true, if_false]
        exact ih

theorem filter_match_filterMap_pass1 (tD : List Nat) (tU : List (Nat × String)) (k : Nat)
    (hk : tD.contains k = false) : ∀ l : List Rule,
    (l.filterMap (pass1fun tD tU)).filter (fun r => parseManagedLabel r.description == some k)
      = (l.filter (fun r => parseManagedLabel r.description == some k)).map
          (fun r =>
            match tU.lookup k with
            | some e => { r with expression := e }
            | none => r) := by
  intro l
  induction l with
  | nil => rfl
  | cons r t ih =>
    cases hp : parseManagedLabel r.description with
    | none =>
      rw [List.filterMap_cons_some (pass1fun_foreign tD tU r hp)]
      rw [List.filter_cons, List.filter_cons]
      simp only [hp, (show ((none : Option Nat) == some k) = false by simp)]
      exact ih
    | some k2 =>
      by_cases hkk : k2 = k
      · subst hkk
        have hstep : ∃ r2, pass1fun tD tU r = some r2 ∧
            r2 = (match tU.lookup k2 with
                  | some e => { r with expression := e }
                  | none => r) ∧ r2.description = r.description := by
          cases hu : tU.lookup k2 with
          | none => exact ⟨r, pass1fun_keep tD tU r k2 hp hk hu, rfl, rfl⟩
          | some e =>
            exact ⟨{ r with expression := e }, pass1fun_update tD tU r k2 e hp hk hu,
              rfl, rfl⟩
        rcases hstep with ⟨r2, h2, hr2, hdesc⟩
        rw [List.filterMap_cons_some h2]
        rw [List.filter_cons, List.filter_cons]
        simp only [hdesc, hp, beq_self_eq_true, if_true]
        rw [List.map_cons, ih, hr2]
      · have hne : (some k2 == some k) = false := by simp [hkk]
        by_cases hd : tD.contains k2
        · rw [List.filterMap_cons_none (pass1fun_delete tD tU r k2 hp hd)]
          rw [List.filter_cons]
          simp only [hp, hne, Bool.false_eq_true, if_false]
          exact ih
        · have hd2 : tD.contains k2 = false := by simpa using hd
          have hstep : ∃ r2, pass1fun tD tU r = some r2 ∧ r2.description = r.description := by
            cases hu : tU.lookup k2 with
            | none => exact ⟨r, pass1fun_keep tD tU r k2 hp hd2 hu, rfl⟩
            | some e =>
              exact ⟨{ r with expression := e }, pass1fun_update tD tU r k2 e hp hd2 hu, rfl⟩
          rcases hstep with ⟨r2, h2, hdesc⟩
          rw [List.filterMap_cons_some h2]
          rw [List.filter_cons, List.filter_cons]
          simp only [hdesc, hp, hne, Bool.false_eq_true, if_false]
          exact ih

theorem length_filterMap_pass1 (tD : List Nat) (tU : List (Nat × String)) :
    ∀ l : List Rule,
      (l.filterMap (pass1fun tD tU)).length = (l.filter (keepRule tD)).length := by
  intro l
  induction l with
  | nil => rfl
  | cons r t ih =>
    cases hp : parseManagedLabel r.description with
    | none =>
      rw [List.filterMap_cons_some (pass1fun_foreign tD tU r hp)]
      have hkeep : keepRule tD r = true := by unfold keepRule; simp only [hp]
      rw [List.filter_cons]
      simp only [hkeep, if_true, List.length_cons]
      rw [ih]
    | some k =>
      by_cases hd : tD.contains k
      · rw [List.filterMap_cons_none (pass1fun_delete tD tU r k hp hd)]
        have hkeep : keepRule tD r = false := by
          unfold keepRule
          simp only [hp, hd, Bool.not_true]
        rw [List.filter_cons]
        simp only [hkeep, Bool.false_eq_true, if_false]
        exact ih
      · have hd2 : tD.contains k = false := by simpa using hd
        have hstep : ∃ r2, pass1fun tD tU r = some r2 := by
          cases hu : tU.lookup k with
          | none => exact ⟨r, pass1fun_keep tD tU r k hp hd2 hu⟩
          | some e => exact ⟨{ r with expression := e }, pass1fun_update tD tU r k e hp hd2 hu⟩
        rcases hstep with ⟨r2, h2⟩
        rw [List.filterMap_cons_some h2]
        have hkeep : keepRule tD r = true := by
          unfold keepRule
          simp only [hp, hd2, Bool.not_false]
        rw [List.filter_cons]
        simp only [hkeep, if_true, List.length_cons]
        rw [ih]

/-! ### The creation pass -/

theorem createPass_foldl (D : List (Nat × String)) (mr n : Nat) :
    ∀ (parts : List Nat) (acc : List Rule) (sk : List Nat),
      parts.foldl (createStep D mr n) (acc, sk)
        = (acc ++ (parts.take (mr - (n + acc.length))).map (mkCreatedRule D),
           sk ++ parts.drop (mr - (n + acc.length))) := by
  intro parts
  induction parts with
  | nil => intro acc sk; simp
  | cons part t ih =>
    intro acc sk
    rw [List.foldl_cons]
    have hstep : createStep D mr n (acc, sk) part
        = if mr ≤ n + acc.length then (acc, sk ++ [part])
          else (acc ++ [mkCreatedRule D part], sk) := rfl
    rw [hstep]
    by_cases h : mr ≤ n + acc.length
    · rw [if_pos h]
      rw [ih acc (sk ++ [part])]
      have h0 : mr - (n + acc.length) = 0 := by omega
      rw [h0]
      simp
    · rw [if_neg h]
      rw [ih (acc ++ [mkCreatedRule D part]) sk]
      have hlen : (acc ++ [mkCreatedRule D part]).length = acc.length + 1 := by simp
      rw [hlen]
      have hm : mr - (n + acc.length) = (mr - (n + (acc.length + 1))) + 1 := by omega
      rw [hm, List.take_succ_cons, List.drop_succ_cons]
      simp

theorem createPass_eq (D : List (Nat × String)) (mr n : Nat) (parts : List Nat) :
    createPass D mr n parts
      = ((parts.take (mr - n)).map (mkCreatedRule D), parts.drop (mr - n)) := by
  unfold createPass
  rw [createPass_foldl D mr n parts [] []]
  simp

theorem mkCreatedRule_parse (D : List (Nat × String)) (part : Nat) :
    parseManagedLabel (mkCreatedRule D part).description = some part :=
  parseManagedLabel_created part

theorem managedSeqs_map_mkCreatedRule (D : List (Nat × String)) :
    ∀ parts : List Nat, managedSeqs (parts.map (mkCreatedRule D)) = parts := by
  intro parts
  induction parts with
  | nil => rfl
  | cons p t ih =>
    rw [List.map_cons, managedSeqs_cons, mkCreatedRule_parse]
    rw [ih]

/-! ### Splicing -/

theorem spliceAt_sublist (l : List Rule) (p : Nat) (newRules : List Rule) :
    List.Sublist l (spliceAt l p newRules) := by
  unfold spliceAt
  rw [List.append_assoc]
  conv_lhs => rw [← List.take_append_drop p l]
  exact (List.Sublist.refl _).append (List.sublist_append_right newRules (l.drop p))

theorem spliceAt_length (l : List Rule) (p : Nat) (newRules : List Rule) :
    (spliceAt l p newRules).length = l.length + newRules.length := by
  unfold spliceAt
  simp only [List.length_append]
  have := List.take_append_drop p l
  have hlen : (l.take p).length + (l.drop p).length = l.length := by
    rw [← List.length_append, this]
  omega

theorem count_managedSeqs_spliceAt (l : List Rule) (p : Nat) (newRules : List Rule) (k : Nat) :
    (managedSeqs (spliceAt l p newRules)).count k
      = (managedSeqs l).count k + (managedSeqs newRules).count k := by
  unfold spliceAt
  rw [managedSeqs_append, managedSeqs_append, List.count_append, List.count_append]
  conv_rhs => rw [← List.take_append_drop p l, managedSeqs_append, List.count_append]
  omega

theorem filter_spliceAt (q : Rule → Bool) (l : List Rule) (p : Nat) (newRules : List Rule)
    (hnew : newRules.filter q = []) :
    (spliceAt l p newRules).filter q = l.filter q := by
  unfold spliceAt
  rw [List.filter_append, List.filter_append, hnew]
  conv_rhs => rw [← List.take_append_drop p l, List.filter_append]
  simp

theorem mem_spliceAt (l : List Rule) (p : Nat) (newRules : List Rule) (r : Rule) :
    r ∈ spliceAt l p newRules ↔ r ∈ l ∨ r ∈ newRules := by
  unfold spliceAt
  simp only [List.mem_append]
  constructor
  · rintro ((h | h) | h)
    · exact Or.inl (List.mem_of_mem_take h)
    · exact Or.inr h
    · exact Or.inl (List.mem_of_mem_drop h)
  · rintro (h | h)
    · rcases List.mem_append.mp ((List.take_append_drop p l).symm ▸ h) with h2 | h2
      · exact Or.inl (Or.inl h2)
      · exact Or.inr h2
    · exact Or.inl (Or.inr h)

/-! ### The sort -/

theorem sortNat_perm (l : List Nat) : List.Perm (sortNat l) l :=
  List.perm_insertionSort (· ≤ ·) l

theorem sortNat_sorted (l : List Nat) : List.Sorted (· ≤ ·) (sortNat l) :=
  List.sorted_insertionSort (· ≤ ·) l

theorem sortNat_mem (l : List Nat) (k : Nat) : k ∈ sortNat l ↔ k ∈ l :=
  (sortNat_perm l).mem_iff

theorem sortNat_count (l : List Nat) (k : Nat) : (sortNat l).count k = l.count k :=
  (sortNat_perm l).count_eq k

theorem sortNat_nodup (l : List Nat) (h : l.Nodup) : (sortNat l).Nodup :=
  ((sortNat_perm l).nodup_iff).mpr h

theorem sortNat_eq_nil_iff (l : List Nat) : sortNat l = [] ↔ l = [] := by
  constructor
  · intro h
    have := (sortNat_perm l).length_eq
    rw [h] at this
    exact List.length_eq_zero.mp this.symm
  · intro h
    subst h
    rfl

/-! ### Branch evaluation of the driver -/

theorem synchronizeCore_none_update_only (ex : List Rule) (D : List (Nat × String)) (mr : Nat)
    (hU : computedUpdates ex D = []) :
    synchronizeCore ex D mr true = { write := none, skipped := [] } := by
  unfold synchronizeCore
  rw [if_pos (by simp [hU])]

theorem synchronizeCore_none_all_empty (ex : List Rule) (D : List (Nat × String)) (mr : Nat)
    (uo : Bool) (hU : computedUpdates ex D = []) (hC : computedCreates ex D = [])
    (hDel : computedDeletes ex D = []) :
    synchronizeCore ex D mr uo = { write := none, skipped := [] } := by
  cases uo with
  | true => exact synchronizeCore_none_update_only ex D mr hU
  | false =>
    unfold synchronizeCore
    rw [if_neg (by simp)]
    rw [if_pos (by simp [hU, hC, hDel])]

theorem synchronizeCore_update_only_write (ex : List Rule) (D : List (Nat × String)) (mr : Nat)
    (hU : computedUpdates ex D ≠ []) :
    synchronizeCore ex D mr true
      = { write := some (pass1 [] (computedUpdates ex D) ex).payload, skipped := [] } := by
  unfold synchronizeCore
  rw [if_neg (by simp [hU])]
  simp only [if_pos rfl]
  rw [if_neg (by simp [hU])]
  rw [if_neg (by simp)]
  simp

theorem synchronizeCore_full_create_nil (ex : List Rule) (D : List (Nat × String)) (mr : Nat)
    (hC : computedCreates ex D = [])
    (hne : ¬(computedDeletes ex D = [] ∧ computedUpdates ex D = [])) :
    synchronizeCore ex D mr false
      = { write := some (pass1 (computedDeletes ex D) (computedUpdates ex D) ex).payload,
          skipped := [] } := by
  unfold synchronizeCore
  rw [if_neg (by simp)]
  simp only [if_neg (Bool.false_ne_true)]
  rw [if_neg (by
    intro hcon
    simp only [Bool.and_eq_true, List.isEmpty_iff] at hcon
    exact hne ⟨hcon.1.2, hcon.2⟩)]
  rw [if_neg (by simp [hC])]

theorem synchronizeCore_full_create_ne (ex : List Rule) (D : List (Nat × String)) (mr : Nat)
    (hC : computedCreates ex D ≠ []) :
    synchronizeCore ex D mr false
      = (let s := pass1 (computedDeletes ex D) (computedUpdates ex D) ex
         let created := createPass D mr s.payload.length (computedCreates ex D)
         { write := some (spliceAt s.payload
             ((max s.lastSkipIndex s.lastManagedIndex) + 1).toNat created.1)
           skipped := created.2 }) := by
  unfold synchronizeCore
  rw [if_neg (by simp)]
  simp only [if_neg (Bool.false_ne_true)]
  rw [if_neg (by simp [hC])]
  rw [if_pos (by simp [hC])]

end CfApply

namespace CfApply

/-! ### Glue lemmas for the claim theorems -/

theorem newExpressionsMap_keys_nodup (new_expressions : List String) :
    ((newExpressionsMap new_expressions).map Prod.fst).Nodup := by
  rw [newExpressionsMap_eq]
  exact desiredFrom_keys_nodup new_expressions 1

theorem mem_computedCreates_iff (ex : List Rule) (D : List (Nat × String)) (k : Nat) :
    k ∈ computedCreates ex D ↔
      k ∈ D.map Prod.fst ∧ k ∉ (managedRulesOnCf ex).map Prod.fst := by
  unfold computedCreates
  rw [sortNat_mem, List.mem_filter]
  simp [List.elem_iff]

theorem mem_computedDeletes_iff (ex : List Rule) (D : List (Nat × String)) (k : Nat) :
    k ∈ computedDeletes ex D ↔
      k ∈ (managedRulesOnCf ex).map Prod.fst ∧ k ∉ D.map Prod.fst := by
  unfold computedDeletes
  rw [List.mem_filter]
  simp [List.elem_iff]

theorem lookup_ne_nil {β : Type} (l : List (Nat × β)) (k : Nat) (v : β)
    (h : l.lookup k = some v) : l ≠ [] := by
  intro hnil
  subst hnil
  cases h

end CfApply

namespace CfApply

/-- C5: `toUpdate` holds exactly the sequence numbers present in both the
managed map and the desired map whose expressions differ as strings,
`toCreate` exactly the desired keys absent from the managed map,
`toDelete` exactly the managed keys absent from the desired map, and a
managed entry whose expression equals the desired content never enters
`toUpdate`, whatever its other fields. -/
theorem C5_diff_set_definitions (existing_rules : List Rule) (new_expressions : List String)
    (k : Nat) (e : String) :
    ((computedUpdates existing_rules (newExpressionsMap new_expressions)).lookup k = some e ↔
      ((newExpressionsMap new_expressions).lookup k = some e ∧
        ∃ r, (managedRulesOnCf existing_rules).lookup k = some r ∧ ¬ r.expression = e))
    ∧ (k ∈ computedCreates existing_rules (newExpressionsMap new_expressions) ↔
        (k ∈ (newExpressionsMap new_expressions).map Prod.fst ∧
          k ∉ (managedRulesOnCf existing_rules).map Prod.fst))
    ∧ (k ∈ computedDeletes existing_rules (newExpressionsMap new_expressions) ↔
        (k ∈ (managedRulesOnCf existing_rules).map Prod.fst ∧
          k ∉ (newExpressionsMap new_expressions).map Prod.fst))
    ∧ (∀ r : Rule, (managedRulesOnCf existing_rules).lookup k = some r →
        (newExpressionsMap new_expressions).lookup k = some r.expression →
        (computedUpdates existing_rules (newExpressionsMap new_expressions)).lookup k
          = none) := by
  have hD := newExpressionsMap_keys_nodup new_expressions
  refine ⟨partsToUpdate_lookup_some_iff _ _ hD k e, mem_computedCreates_iff _ _ k,
    mem_computedDeletes_iff _ _ k, ?_⟩
  intro r hM hDk
  cases hlook : (computedUpdates existing_rules (newExpressionsMap new_expressions)).lookup k with
  | none => rfl
  | some e2 =>
    exfalso
    rcases (partsToUpdate_lookup_some_iff _ _ hD k e2).mp hlook with ⟨hDk2, r2, hM2, hne⟩
    rw [hM] at hM2
    cases hM2
    rw [hDk] at hDk2
    cases hDk2
    exact hne rfl

theorem C5_diff_set_definitions_witness :
    (computedUpdates [{ managedRule 1 "same" with enabled := false }]
      (newExpressionsMap ["same"])).lookup 1 = none :=
  (C5_diff_set_definitions [{ managedRule 1 "same" with enabled := false }] ["same"] 1 "same").2.2.2
    { managedRule 1 "same" with enabled := false } (by decide) (by decide)

/-- C8: the label parser succeeds exactly on labels that begin with the
fixed managed prefix immediately followed by a digit (anchored at the
start, trailing text allowed), on such labels it returns the value of the
maximal digit run, it is a total function, and when several rules carry
the same sequence number the managed map keeps the last one in iteration
order. -/
theorem C8_tag_parsing (label : String) (rules : List Rule) (k : Nat) :
    ((parseManagedLabel label).isSome = true ↔
      ∃ c cs, label.toList = managedRulePrefixChars ++ (c :: cs) ∧ c.isDigit = true)
    ∧ ((managedRulesOnCf rules).lookup k =
        (rules.filter (fun r => parseManagedLabel r.description == some k)).getLast?)
    ∧ (∀ ds rest : List Char, ds ≠ [] → (∀ c ∈ ds, c.isDigit = true) →
        (∀ c cs, rest = c :: cs → c.isDigit = false) →
        parseManagedLabel (String.mk (managedRulePrefixChars ++ (ds ++ rest)))
          = some (digitsToNat ds)) :=
  ⟨parse_isSome_iff label, managedRulesOnCf_lookup rules k,
    fun ds rest h1 h2 h3 => parse_prefix_digits ds rest h1 h2 h3⟩

theorem C8_tag_parsing_witness :
    (managedRulesOnCf [managedRule 7 "first", managedRule 7 "second"]).lookup 7
      = some (managedRule 7 "second") := by
  rw [(C8_tag_parsing "" [managedRule 7 "first", managedRule 7 "second"] 7).2.1]
  decide

/-- C3: the creation loop visits the sorted parts in ascending order and
accepts exactly those that still fit under the ceiling at the moment they
are considered — in closed form it accepts the first
`max_rules - payloadLen` parts and skips the rest with a warning — and in
the concrete scenario with `max_rules = 5`, four existing foreign entries
and three desired creations, exactly one creation is accepted, two are
reported skipped, and the applied list has length 5. -/
theorem C3_capacity_best_effort :
    (∀ (desiredMap : List (Nat × String)) (max_rules payloadLen : Nat) (parts : List Nat),
      createPass desiredMap max_rules payloadLen parts
        = ((parts.take (max_rules - payloadLen)).map (mkCreatedRule desiredMap),
           parts.drop (max_rules - payloadLen)))
    ∧ (synchronize_rules [foreignRule "a", foreignRule "b", foreignRule "c", foreignRule "d"]
         ["e1", "e2", "e3"] 5 false).skipped = [2, 3]
    ∧ (Option.getD (synchronize_rules [foreignRule "a", foreignRule "b", foreignRule "c",
         foreignRule "d"] ["e1", "e2", "e3"] 5 false).write []).length = 5 :=
  ⟨createPass_eq, by decide, by decide⟩

theorem C3_capacity_best_effort_witness :
    createPass [(1, "u"), (2, "v"), (3, "w")] 5 4 [1, 2, 3]
      = ([mkCreatedRule [(1, "u"), (2, "v"), (3, "w")] 1], [2, 3]) := by
  rw [C3_capacity_best_effort.1]
  decide

end CfApply

namespace CfApply

theorem contains_eq_false_iff (l : List Nat) (k : Nat) : l.contains k = false ↔ k ∉ l := by
  constructor
  · intro h hmem
    have h2 : l.contains k = true := List.elem_iff.mpr hmem
    rw [h] at h2
    cases h2
  · intro h
    cases hc : l.contains k
    · rfl
    · exact absurd (List.elem_iff.mp hc) h

theorem filterMap_eq_map_of {α β : Type} (f : α → Option β) (g : α → β)
    (h : ∀ a, f a = some (g a)) : ∀ l : List α, l.filterMap f = l.map g := by
  intro l
  induction l with
  | nil => rfl
  | cons a t ih => rw [List.filterMap_cons_some (h a), List.map_cons, ih]

theorem pass1fun_nil_deletes (tU : List (Nat × String)) (r : Rule) :
    pass1fun [] tU r = some
      (match parseManagedLabel r.description with
       | some k =>
         (match tU.lookup k with
          | some e => { r with expression := e }
          | none => r)
       | none => r) := by
  cases hp : parseManagedLabel r.description with
  | none => rw [pass1fun_foreign [] tU r hp]
  | some k =>
    show pass1fun [] tU r = some
      (match tU.lookup k with
       | some e => { r with expression := e }
       | none => r)
    cases hu : tU.lookup k with
    | none => rw [pass1fun_keep [] tU r k hp rfl hu]
    | some e => rw [pass1fun_update [] tU r k e hp rfl hu]

/-- Master case split: every way `synchronize_rules` reaches the write
call, with the payload and skipped set of each branch. -/
theorem write_some_spec (ex : List Rule) (D : List (Nat × String)) (mr : Nat) (uo : Bool)
    (payload : List Rule)
    (h : (synchronizeCore ex D mr uo).write = some payload) :
    (uo = true ∧ computedUpdates ex D ≠ [] ∧
      payload = (pass1 [] (computedUpdates ex D) ex).payload ∧
      (synchronizeCore ex D mr uo).skipped = []) ∨
    (uo = false ∧ computedCreates ex D = [] ∧
      payload = (pass1 (computedDeletes ex D) (computedUpdates ex D) ex).payload ∧
      (synchronizeCore ex D mr uo).skipped = []) ∨
    (uo = false ∧ computedCreates ex D ≠ [] ∧
      payload = spliceAt (pass1 (computedDeletes ex D) (computedUpdates ex D) ex).payload
        ((max (pass1 (computedDeletes ex D) (computedUpdates ex D) ex).lastSkipIndex
              (pass1 (computedDeletes ex D) (computedUpdates ex D) ex).lastManagedIndex)
          + 1).toNat
        (createPass D mr (pass1 (computedDeletes ex D) (computedUpdates ex D) ex).payload.length
          (computedCreates ex D)).1 ∧
      (synchronizeCore ex D mr uo).skipped
        = (createPass D mr
            (pass1 (computedDeletes ex D) (computedUpdates ex D) ex).payload.length
            (computedCreates ex D)).2) := by
  cases uo with
  | true =>
    by_cases hU : computedUpdates ex D = []
    · rw [synchronizeCore_none_update_only ex D mr hU] at h
      cases h
    · left
      rw [synchronizeCore_update_only_write ex D mr hU] at h
      refine ⟨rfl, hU, (Option.some.inj h).symm, ?_⟩
      rw [synchronizeCore_update_only_write ex D mr hU]
  | false =>
    by_cases hC : computedCreates ex D = []
    · by_cases hrest : computedDeletes ex D = [] ∧ computedUpdates ex D = []
      · rw [(show (synchronizeCore ex D mr false).write = none by
          rw [synchronizeCore_none_all_empty ex D mr false hrest.2 hC hrest.1])] at h
        cases h
      · right
        left
        rw [synchronizeCore_full_create_nil ex D mr hC hrest] at h
        refine ⟨rfl, hC, (Option.some.inj h).symm, ?_⟩
        rw [synchronizeCore_full_create_nil ex D mr hC hrest]
    · right
      right
      rw [synchronizeCore_full_create_ne ex D mr hC] at h
      refine ⟨rfl, hC, (Option.some.inj h).symm, ?_⟩
      rw [synchronizeCore_full_create_ne ex D mr hC]

/-- C6: with `update_only` set, the computed creation and deletion sets
are discarded whatever their value and only the updates are applied: the
outcome is either no write (nothing to update) or a write whose payload is
the original list with only the expressions of updated parts rewritten; in
the concrete scenario where the desired map drops sequence 3, adds
sequence 4 and changes sequence 2, only sequence 2 is rewritten, sequence
3 survives in the payload and sequence 4 is not created. -/
theorem C6_update_only_suppression :
    (∀ (existing_rules : List Rule) (desiredMap : List (Nat × String)) (max_rules : Nat),
      synchronizeCore existing_rules desiredMap max_rules true
        = (if computedUpdates existing_rules desiredMap = []
           then { write := none, skipped := [] }
           else
             { write := some (existing_rules.map (fun r =>
                 match parseManagedLabel r.description with
                 | some k =>
                   (match (computedUpdates existing_rules desiredMap).lookup k with
                    | some e => { r with expression := e }
                    | none => r)
                 | none => r))
               skipped := [] }))
    ∧ computedUpdates [managedRule 1 "a", managedRule 2 "old", managedRule 3 "c"]
        [(1, "a"), (2, "b"), (4, "d")] = [(2, "b")]
    ∧ computedCreates [managedRule 1 "a", managedRule 2 "old", managedRule 3 "c"]
        [(1, "a"), (2, "b"), (4, "d")] = [4]
    ∧ computedDeletes [managedRule 1 "a", managedRule 2 "old", managedRule 3 "c"]
        [(1, "a"), (2, "b"), (4, "d")] = [3]
    ∧ synchronizeCore [managedRule 1 "a", managedRule 2 "old", managedRule 3 "c"]
        [(1, "a"), (2, "b"), (4, "d")] 15 true
        = { write := some [managedRule 1 "a", managedRule 2 "b", managedRule 3 "c"]
            skipped := [] } := by
  refine ⟨?_, by decide, by decide, by decide, by decide⟩
  intro existing_rules desiredMap max_rules
  by_cases hU : computedUpdates existing_rules desiredMap = []
  · rw [if_pos hU]
    exact synchronizeCore_none_update_only existing_rules desiredMap max_rules hU
  · rw [if_neg hU]
    rw [synchronizeCore_update_only_write existing_rules desiredMap max_rules hU]
    rw [pass1_payload]
    rw [filterMap_eq_map_of _ _ (pass1fun_nil_deletes (computedUpdates existing_rules desiredMap))]

theorem C6_update_only_suppression_witness :
    synchronizeCore [managedRule 2 "x"] [(2, "y")] 3 true
      = { write := some [managedRule 2 "y"], skipped := [] } := by
  rw [C6_update_only_suppression.1 [managedRule 2 "x"] [(2, "y")] 3]
  decide

/-- C9: whenever the computed update set maps an existing managed rule's
sequence number to a new expression, the write happens and its payload
contains a copy of that rule in which only the expression was replaced:
id, description, action, enabled flag and action parameters all carry
over unchanged (the pass works on copies, so the input record itself is
never mutated). -/
theorem C9_update_frame_effect (existing_rules : List Rule) (desiredMap : List (Nat × String))
    (max_rules : Nat) (update_only : Bool) (r : Rule) (k : Nat) (e : String)
    (hr : r ∈ existing_rules)
    (hp : parseManagedLabel r.description = some k)
    (hu : (computedUpdates existing_rules desiredMap).lookup k = some e) :
    ∃ payload,
      (synchronizeCore existing_rules desiredMap max_rules update_only).write = some payload
      ∧ ∃ r2, r2 ∈ payload ∧ r2 = { r with expression := e } ∧
        r2.id = r.id ∧ r2.description = r.description ∧ r2.action = r.action ∧
        r2.enabled = r.enabled ∧ r2.action_parameters = r.action_parameters ∧
        r2.expression = e := by
  have hUne : computedUpdates existing_rules desiredMap ≠ [] := lookup_ne_nil _ _ _ hu
  have hkD : k ∈ desiredMap.map Prod.fst := by
    have hmem := lookup_mem _ _ _ hu
    rcases (mem_partsToUpdate_iff _ _ (k, e)).mp hmem with ⟨hDmem, _⟩
    exact List.mem_map_of_mem Prod.fst hDmem
  have hgen : ∀ tD : List Nat, tD.contains k = false →
      { r with expression := e } ∈
        (pass1 tD (computedUpdates existing_rules desiredMap) existing_rules).payload := by
    intro tD hcont
    rw [pass1_payload]
    exact List.mem_filterMap.mpr ⟨r, hr, pass1fun_update _ _ r k e hp hcont hu⟩
  have hcontD : (computedDeletes existing_rules desiredMap).contains k = false := by
    rw [contains_eq_false_iff]
    intro hmem
    exact ((mem_computedDeletes_iff existing_rules desiredMap k).mp hmem).2 hkD
  cases update_only with
  | true =>
    rw [synchronizeCore_update_only_write existing_rules desiredMap max_rules hUne]
    exact ⟨_, rfl, { r with expression := e }, hgen [] rfl, rfl, rfl, rfl, rfl, rfl, rfl, rfl⟩
  | false =>
    by_cases hC : computedCreates existing_rules desiredMap = []
    · rw [synchronizeCore_full_create_nil existing_rules desiredMap max_rules hC
        (fun hcon => hUne hcon.2)]
      exact ⟨_, rfl, { r with expression := e }, hgen _ hcontD, rfl, rfl, rfl, rfl, rfl, rfl, rfl⟩
    · rw [synchronizeCore_full_create_ne existing_rules desiredMap max_rules hC]
      refine ⟨_, rfl, { r with expression := e }, ?_, rfl, rfl, rfl, rfl, rfl, rfl, rfl⟩
      exact (mem_spliceAt _ _ _ _).mpr (Or.inl (hgen _ hcontD))

theorem C9_update_frame_effect_witness :
    ∃ payload,
      (synchronizeCore [{ managedRule 1 "old" with enabled := false }] [(1, "new")] 5 false).write
        = some payload
      ∧ ∃ r2, r2 ∈ payload ∧
        r2 = { { managedRule 1 "old" with enabled := false } with expression := "new" } ∧
        r2.id = ({ managedRule 1 "old" with enabled := false } : Rule).id ∧
        r2.description = ({ managedRule 1 "old" with enabled := false } : Rule).description ∧
        r2.action = ({ managedRule 1 "old" with enabled := false } : Rule).action ∧
        r2.enabled = ({ managedRule 1 "old" with enabled := false } : Rule).enabled ∧
        r2.action_parameters
          = ({ managedRule 1 "old" with enabled := false } : Rule).action_parameters ∧
        r2.expression = "new" :=
  C9_update_frame_effect [{ managedRule 1 "old" with enabled := false }] [(1, "new")] 5 false
    { managedRule 1 "old" with enabled := false } 1 "new" (by decide) (by decide) (by decide)

end CfApply

namespace CfApply

theorem if_false_bool {α : Type} (a b : α) : (if (false : Bool) = true then a else b) = b := rfl

theorem filter_foreign_map_mk (D : List (Nat × String)) : ∀ parts : List Nat,
    ((parts.map (mkCreatedRule D)).filter
      (fun r => (parseManagedLabel r.description).isNone)) = [] := by
  intro parts
  induction parts with
  | nil => rfl
  | cons p t ih =>
    rw [List.map_cons, List.filter_cons]
    simp only [mkCreatedRule_parse, Option.isNone_some, Bool.false_eq_true, if_false]
    exact ih

theorem pass1_payload_length (tD : List Nat) (tU : List (Nat × String)) (ex : List Rule) :
    (pass1 tD tU ex).payload.length = (retainedRules tD ex).length := by
  rw [pass1_payload]
  exact length_filterMap_pass1 tD tU ex

theorem filter_foreign_build (tD : List Nat) (tU : List (Nat × String)) (ex : List Rule)
    (p : Nat) (newRules : List Rule)
    (hnew : newRules.filter (fun r => (parseManagedLabel r.description).isNone) = []) :
    (spliceAt (pass1 tD tU ex).payload p newRules).filter
        (fun r => (parseManagedLabel r.description).isNone)
      = ex.filter (fun r => (parseManagedLabel r.description).isNone) := by
  rw [filter_spliceAt _ _ _ _ hnew, pass1_payload]
  exact filter_foreign_filterMap_pass1 tD tU ex

theorem computedCreates_sorted_lt (ex : List Rule) (new_expressions : List String) :
    List.Sorted (· < ·) (computedCreates ex (newExpressionsMap new_expressions)) := by
  have hs : List.Sorted (· ≤ ·) (computedCreates ex (newExpressionsMap new_expressions)) :=
    sortNat_sorted _
  have hn : (computedCreates ex (newExpressionsMap new_expressions)).Nodup :=
    sortNat_nodup _ ((newExpressionsMap_keys_nodup new_expressions).filter _)
  rw [List.Sorted] at hs ⊢
  exact (hs.and hn).imp (fun hx => lt_of_le_of_ne hx.1 hx.2)

/-- C4: every foreign entry of the remote list reaches the written payload
unchanged, and the foreign entries keep their relative order: filtering
the payload down to the foreign entries gives back exactly the foreign
subsequence of the input list. -/
theorem C4_foreign_preservation (existing_rules : List Rule) (new_expressions : List String)
    (max_rules : Nat) (update_only : Bool) (payload : List Rule)
    (h : (synchronize_rules existing_rules new_expressions max_rules update_only).write
      = some payload) :
    payload.filter (fun r => (parseManagedLabel r.description).isNone)
      = existing_rules.filter (fun r => (parseManagedLabel r.description).isNone) := by
  rcases write_some_spec existing_rules (newExpressionsMap new_expressions) max_rules
      update_only payload h with
    ⟨_, _, hpay, _⟩ | ⟨_, _, hpay, _⟩ | ⟨_, _, hpay, _⟩
  · rw [hpay, pass1_payload]
    exact filter_foreign_filterMap_pass1 _ _ existing_rules
  · rw [hpay, pass1_payload]
    exact filter_foreign_filterMap_pass1 _ _ existing_rules
  · rw [hpay]
    refine filter_foreign_build _ _ _ _ _ ?_
    rw [createPass_eq]
    exact filter_foreign_map_mk _ _

theorem C4_foreign_preservation_witness :
    [anchorRule "f1", managedRule 1 "a", mkCreatedRule (newExpressionsMap ["a", "b"]) 2,
        foreignRule "f2"].filter (fun r => (parseManagedLabel r.description).isNone)
      = [anchorRule "f1", managedRule 1 "a", foreignRule "f2",
          managedRule 3 "z"].filter (fun r => (parseManagedLabel r.description).isNone) :=
  C4_foreign_preservation
    [anchorRule "f1", managedRule 1 "a", foreignRule "f2", managedRule 3 "z"]
    ["a", "b"] 10 false
    [anchorRule "f1", managedRule 1 "a", mkCreatedRule (newExpressionsMap ["a", "b"]) 2,
      foreignRule "f2"]
    (by decide)

/-- C10: the builder never drops retained entries to satisfy the ceiling:
the written payload is never longer than the larger of `max_rules` and the
number of entries retained from the original list after deletions, and
when the retained list alone already reaches `max_rules` the payload is
exactly the retained list length (zero creations are added and nothing is
truncated). -/
theorem C10_length_bound (existing_rules : List Rule) (new_expressions : List String)
    (max_rules : Nat) (update_only : Bool) (payload : List Rule)
    (h : (synchronize_rules existing_rules new_expressions max_rules update_only).write
      = some payload) :
    payload.length ≤ max max_rules
        (retainedRules (if update_only then []
          else computedDeletes existing_rules (newExpressionsMap new_expressions))
          existing_rules).length
    ∧ (max_rules ≤ (retainedRules (if update_only then []
          else computedDeletes existing_rules (newExpressionsMap new_expressions))
          existing_rules).length →
        payload.length = (retainedRules (if update_only then []
          else computedDeletes existing_rules (newExpressionsMap new_expressions))
          existing_rules).length) := by
  rcases write_some_spec existing_rules (newExpressionsMap new_expressions) max_rules
      update_only payload h with
    ⟨huo, _, hpay, _⟩ | ⟨huo, _, hpay, _⟩ | ⟨huo, _, hpay, _⟩ <;> subst huo
  · rw [hpay, pass1_payload_length]
    exact ⟨le_max_right _ _, fun _ => rfl⟩
  · rw [hpay, pass1_payload_length]
    exact ⟨le_max_right _ _, fun _ => rfl⟩
  · rw [hpay, spliceAt_length, createPass_eq]
    rw [pass1_payload_length]
    rw [if_false_bool]
    simp only [List.length_map, List.length_take]
    constructor
    · omega
    · intro hge
      omega

theorem C10_length_bound_witness :
    ([foreignRule "a", foreignRule "b", foreignRule "c"].map id).length ≤ 3 ∧
      (Option.getD (synchronize_rules
        [foreignRule "a", foreignRule "b", foreignRule "c", managedRule 5 "q"]
        ["e1", "e2"] 2 false).write []).length = 3 := by
  constructor
  · decide
  · have h := C10_length_bound
      [foreignRule "a", foreignRule "b", foreignRule "c", managedRule 5 "q"]
      ["e1", "e2"] 2 false
      [foreignRule "a", foreignRule "b", foreignRule "c"] (by decide)
    have h2 := h.2 (by decide)
    decide

/-- C2: the accepted new entries enter the rebuilt list as one contiguous
block at index `max(lastSkipIndex, lastManagedIndex) + 1` (both indices
start at -1, so with neither present the block lands at index 0), in
ascending sequence-number order, and the splice never changes the relative
order of the entries already in the rebuilt list; in the anchor scenario
`[foreign(skip), managed(1), foreign]` with desired `[c1, c2]`, the new
entry for sequence 2 lands immediately after `managed(1)`. -/
theorem C2_insertion_position :
    (∀ (existing_rules : List Rule) (new_expressions : List String) (max_rules : Nat)
       (payload : List Rule),
      (synchronize_rules existing_rules new_expressions max_rules false).write = some payload →
      (let s := pass1 (computedDeletes existing_rules (newExpressionsMap new_expressions))
           (computedUpdates existing_rules (newExpressionsMap new_expressions)) existing_rules
       let insertion_point := ((max s.lastSkipIndex s.lastManagedIndex) + 1).toNat
       let accepted := ((computedCreates existing_rules (newExpressionsMap new_expressions)).take
           (max_rules - s.payload.length)).map
           (mkCreatedRule (newExpressionsMap new_expressions))
       payload = s.payload.take insertion_point ++ accepted ++ s.payload.drop insertion_point
         ∧ List.Sorted (· < ·) (managedSeqs accepted)
         ∧ List.Sublist s.payload payload))
    ∧ synchronize_rules [anchorRule "vip", managedRule 1 "c1", foreignRule "other"]
        ["c1", "c2"] 10 false
      = { write := some [anchorRule "vip", managedRule 1 "c1",
            mkCreatedRule (newExpressionsMap ["c1", "c2"]) 2, foreignRule "other"]
          skipped := [] } := by
  refine ⟨?_, by decide⟩
  intro existing_rules new_expressions max_rules payload h
  have hsorted : List.Sorted (· < ·)
      (managedSeqs (((computedCreates existing_rules (newExpressionsMap new_expressions)).take
        (max_rules - (pass1 (computedDeletes existing_rules (newExpressionsMap new_expressions))
          (computedUpdates existing_rules (newExpressionsMap new_expressions))
          existing_rules).payload.length)).map
        (mkCreatedRule (newExpressionsMap new_expressions)))) := by
    rw [managedSeqs_map_mkCreatedRule]
    exact (computedCreates_sorted_lt existing_rules new_expressions).sublist
      (List.take_sublist _ _)
  rcases write_some_spec existing_rules (newExpressionsMap new_expressions) max_rules
      false payload h with
    ⟨hcon, _⟩ | ⟨_, hC, hpay, _⟩ | ⟨_, _, hpay, _⟩
  · cases hcon
  · refine ⟨?_, ?_, ?_⟩
    · rw [hpay, hC]
      simp only [List.take_nil, List.map_nil, List.append_nil, List.take_append_drop]
    · rw [hC]
      simp only [List.take_nil, List.map_nil, managedSeqs_nil]
      exact List.sorted_nil
    · rw [hpay]
  · refine ⟨?_, hsorted, ?_⟩
    · rw [hpay, createPass_eq]
      rfl
    · rw [hpay]
      exact spliceAt_sublist _ _ _

theorem C2_insertion_position_witness :
    List.Sublist
      (pass1 (computedDeletes [anchorRule "vip", managedRule 1 "c1", foreignRule "other"]
          (newExpressionsMap ["c1", "c2"]))
        (computedUpdates [anchorRule "vip", managedRule 1 "c1", foreignRule "other"]
          (newExpressionsMap ["c1", "c2"]))
        [anchorRule "vip", managedRule 1 "c1", foreignRule "other"]).payload
      [anchorRule "vip", managedRule 1 "c1", mkCreatedRule (newExpressionsMap ["c1", "c2"]) 2,
        foreignRule "other"] :=
  (C2_insertion_position.1 [anchorRule "vip", managedRule 1 "c1", foreignRule "other"]
    ["c1", "c2"] 10
    [anchorRule "vip", managedRule 1 "c1", mkCreatedRule (newExpressionsMap ["c1", "c2"]) 2,
      foreignRule "other"] (by decide)).2.2

end CfApply

namespace CfApply

theorem filter_match_eq_nil (l : List Rule) (k : Nat) (h : k ∉ managedSeqs l) :
    l.filter (fun r => parseManagedLabel r.description == some k) = [] := by
  rw [List.filter_eq_nil_iff]
  intro r hr hbeq
  have hp : parseManagedLabel r.description = some k := by simpa using hbeq
  exact h ((mem_managedSeqs_iff l k).mpr ⟨r, hr, hp⟩)

theorem count_filter_bool (l : List Nat) (p : Nat → Bool) (k : Nat) :
    (l.filter p).count k = if p k = true then l.count k else 0 := by
  by_cases h : p k = true
  · rw [if_pos h]
    exact List.count_filter h
  · rw [if_neg h]
    rw [List.count_eq_zero]
    intro hmem
    exact h (List.of_mem_filter hmem)

theorem nodup_filter_match (l : List Rule) (hn : (managedSeqs l).Nodup) (r : Rule) (k : Nat)
    (hr : r ∈ l) (hp : parseManagedLabel r.description = some k) :
    l.filter (fun r2 => parseManagedLabel r2.description == some k) = [r] := by
  induction l with
  | nil => cases hr
  | cons a t ih =>
    rw [managedSeqs_cons] at hn
    cases hpa : parseManagedLabel a.description with
    | none =>
      rw [hpa] at hn
      rcases List.mem_cons.mp hr with rfl | hrt
      · rw [hp] at hpa
        cases hpa
      · rw [List.filter_cons]
        have hb : (parseManagedLabel a.description == some k) = false := by simp [hpa]
        simp only [hb, Bool.false_eq_true, if_false]
        exact ih hn hrt
    | some ka =>
      rw [hpa] at hn
      have hn2 := List.nodup_cons.mp hn
      by_cases hak : ka = k
      · subst hak
        rcases List.mem_cons.mp hr with rfl | hrt
        · rw [List.filter_cons]
          have hb : (parseManagedLabel r.description == some ka) = true := by simp [hp]
          simp only [hb, if_true]
          rw [filter_match_eq_nil t ka hn2.1]
        · exact absurd ((mem_managedSeqs_iff t ka).mpr ⟨r, hrt, hp⟩) hn2.1
      · rcases List.mem_cons.mp hr with rfl | hrt
        · rw [hp] at hpa
          exact absurd (Option.some.inj hpa).symm hak
        · rw [List.filter_cons]
          have hb : (parseManagedLabel a.description == some k) = false := by
            simp [hpa, hak]
          simp only [hb, Bool.false_eq_true, if_false]
          exact ih hn2.2 hrt

theorem managed_unique_lookup (l : List Rule) (hn : (managedSeqs l).Nodup) (r : Rule) (k : Nat)
    (hr : r ∈ l) (hp : parseManagedLabel r.description = some k) :
    (managedRulesOnCf l).lookup k = some r := by
  rw [managedRulesOnCf_lookup]
  unfold lastManagedWith
  rw [nodup_filter_match l hn r k hr hp]
  rfl

theorem pass1_mem_expression (ex : List Rule) (new_expressions : List String) (r2 : Rule)
    (k : Nat) (hnodup : (managedSeqs ex).Nodup)
    (hr2 : r2 ∈ (pass1 (computedDeletes ex (newExpressionsMap new_expressions))
        (computedUpdates ex (newExpressionsMap new_expressions)) ex).payload)
    (hk : parseManagedLabel r2.description = some k) :
    (newExpressionsMap new_expressions).lookup k = some r2.expression := by
  rw [pass1_payload] at hr2
  rcases List.mem_filterMap.mp hr2 with ⟨r, hr, hfr⟩
  have hdesc := (pass1fun_preserves_fields _ _ r r2 hfr).1
  have hpr : parseManagedLabel r.description = some k := by
    rw [← hdesc]
    exact hk
  rcases pass1fun_some_spec _ _ r r2 hfr with ⟨hpn, _⟩ | ⟨k2, hp2, hcont, hcase⟩
  · rw [hpr] at hpn
    cases hpn
  · rw [hpr] at hp2
    injection hp2 with hk2
    subst hk2
    rcases hcase with ⟨e, hu, rfl⟩ | ⟨hu, rfl⟩
    · exact ((partsToUpdate_lookup_some_iff (managedRulesOnCf ex)
        (newExpressionsMap new_expressions) (newExpressionsMap_keys_nodup new_expressions)
        k e).mp hu).1
    · have hkd : k ∈ (newExpressionsMap new_expressions).map Prod.fst := by
        by_contra hnd
        have hep : k ∈ (managedRulesOnCf ex).map Prod.fst :=
          (managedRulesOnCf_keys_iff ex k).mpr ((mem_managedSeqs_iff ex k).mpr ⟨_, hr, hpr⟩)
        have hmem : k ∈ computedDeletes ex (newExpressionsMap new_expressions) :=
          (mem_computedDeletes_iff ex (newExpressionsMap new_expressions) k).mpr ⟨hep, hnd⟩
        exact (contains_eq_false_iff _ k).mp hcont hmem
      cases hl : (newExpressionsMap new_expressions).lookup k with
      | none =>
        rw [lookup_eq_none_iff] at hl
        exact absurd hkd hl
      | some e =>
        have hde : (k, e) ∈ newExpressionsMap new_expressions := lookup_mem _ _ _ hl
        have hM := managed_unique_lookup ex hnodup _ k hr hpr
        have hexpr := partsToUpdate_lookup_none (managedRulesOnCf ex)
          (newExpressionsMap new_expressions) k e _ hde hM hu
        rw [hexpr]

theorem mk_mem_expression (new_expressions : List String) (parts : List Nat)
    (hparts : ∀ j ∈ parts, j ∈ (newExpressionsMap new_expressions).map Prod.fst)
    (r2 : Rule) (k : Nat)
    (hr2 : r2 ∈ parts.map (mkCreatedRule (newExpressionsMap new_expressions)))
    (hk : parseManagedLabel r2.description = some k) :
    (newExpressionsMap new_expressions).lookup k = some r2.expression := by
  rcases List.mem_map.mp hr2 with ⟨j, hj, rfl⟩
  rw [mkCreatedRule_parse] at hk
  injection hk with hjk
  subst hjk
  have hmem := hparts j hj
  cases hl : (newExpressionsMap new_expressions).lookup j with
  | none =>
    rw [lookup_eq_none_iff] at hl
    exact absurd hmem hl
  | some e =>
    have hexp : (mkCreatedRule (newExpressionsMap new_expressions) j).expression
        = ((newExpressionsMap new_expressions).lookup j).getD "" := rfl
    rw [hexp, hl]
    rfl

theorem count_full_sync (ex : List Rule) (new_expressions : List String) (k : Nat)
    (hnodup : (managedSeqs ex).Nodup) :
    (managedSeqs (pass1 (computedDeletes ex (newExpressionsMap new_expressions))
        (computedUpdates ex (newExpressionsMap new_expressions)) ex).payload).count k
      + (computedCreates ex (newExpressionsMap new_expressions)).count k
      = (if (((newExpressionsMap new_expressions).lookup k).isSome = true) then 1 else 0) := by
  rw [pass1_payload, managedSeqs_filterMap_pass1]
  unfold computedCreates
  rw [sortNat_count, count_filter_bool, count_filter_bool]
  by_cases hdp : k ∈ (newExpressionsMap new_expressions).map Prod.fst
  · have hsome : (((newExpressionsMap new_expressions).lookup k).isSome = true) :=
      (lookup_isSome_iff _ k).mpr hdp
    have htd : (computedDeletes ex (newExpressionsMap new_expressions)).contains k = false := by
      rw [contains_eq_false_iff]
      intro hm
      exact ((mem_computedDeletes_iff ex (newExpressionsMap new_expressions) k).mp hm).2 hdp
    rw [htd, if_pos hsome]
    by_cases hep : k ∈ (managedRulesOnCf ex).map Prod.fst
    · have hepc : ((managedRulesOnCf ex).map Prod.fst).contains k = true :=
        List.elem_iff.mpr hep
      rw [hepc]
      simp only [Bool.not_false, Bool.not_true, if_true, Bool.false_eq_true, if_false]
      have h1 : (managedSeqs ex).count k = 1 :=
        List.count_eq_one_of_mem hnodup ((managedRulesOnCf_keys_iff ex k).mp hep)
      omega
    · have hepc : ((managedRulesOnCf ex).map Prod.fst).contains k = false :=
        (contains_eq_false_iff _ k).mpr hep
      rw [hepc]
      simp only [Bool.not_false, if_true]
      have h0 : (managedSeqs ex).count k = 0 :=
        List.count_eq_zero_of_not_mem (fun hm => hep ((managedRulesOnCf_keys_iff ex k).mpr hm))
      have h1 : ((newExpressionsMap new_expressions).map Prod.fst).count k = 1 :=
        List.count_eq_one_of_mem (newExpressionsMap_keys_nodup new_expressions) hdp
      omega
  · have hnots : ¬ ((((newExpressionsMap new_expressions).lookup k).isSome = true)) :=
      fun hs => hdp ((lookup_isSome_iff _ k).mp hs)
    rw [if_neg hnots]
    have hcdp : ((newExpressionsMap new_expressions).map Prod.fst).count k = 0 :=
      List.count_eq_zero_of_not_mem hdp
    by_cases hep : k ∈ (managedRulesOnCf ex).map Prod.fst
    · have htd : (computedDeletes ex (newExpressionsMap new_expressions)).contains k = true :=
        List.elem_iff.mpr
          ((mem_computedDeletes_iff ex (newExpressionsMap new_expressions) k).mpr ⟨hep, hdp⟩)
      have hepc : ((managedRulesOnCf ex).map Prod.fst).contains k = true :=
        List.elem_iff.mpr hep
      rw [htd, hepc]
      simp only [Bool.not_true, Bool.false_eq_true, if_false]
    · have htd : (computedDeletes ex (newExpressionsMap new_expressions)).contains k = false := by
        rw [contains_eq_false_iff]
        intro hm
        exact hep ((mem_computedDeletes_iff ex (newExpressionsMap new_expressions) k).mp hm).1
      have hepc : ((managedRulesOnCf ex).map Prod.fst).contains k = false :=
        (contains_eq_false_iff _ k).mpr hep
      rw [htd, hepc]
      simp only [Bool.not_false, if_true]
      have h0 : (managedSeqs ex).count k = 0 :=
        List.count_eq_zero_of_not_mem (fun hm => hep ((managedRulesOnCf_keys_iff ex k).mpr hm))
      omega

end CfApply

namespace CfApply

/-- C1: in full sync mode, when the managed labels of the remote list
carry pairwise-distinct sequence numbers, the write happens and no
creation is skipped by the ceiling, the written payload carries exactly
one managed entry for every desired sequence number — with its expression
equal to the desired content for that number — and no managed entry whose
sequence number lies outside the desired keys. -/
theorem C1_full_sync_end_state (existing_rules : List Rule) (new_expressions : List String)
    (max_rules : Nat) (payload : List Rule)
    (hnodup : (managedSeqs existing_rules).Nodup)
    (h : (synchronize_rules existing_rules new_expressions max_rules false).write = some payload)
    (hskip : (synchronize_rules existing_rules new_expressions max_rules false).skipped = []) :
    (∀ k : Nat, (managedSeqs payload).count k
        = (if (((newExpressionsMap new_expressions).lookup k).isSome = true) then 1 else 0))
    ∧ (∀ r2 ∈ payload, ∀ k : Nat, parseManagedLabel r2.description = some k →
        (newExpressionsMap new_expressions).lookup k = some r2.expression) := by
  rcases write_some_spec existing_rules (newExpressionsMap new_expressions) max_rules false
      payload h with ⟨hcon, _⟩ | ⟨_, hC, hpay, _⟩ | ⟨_, hC, hpay, hsk⟩
  · cases hcon
  · constructor
    · intro k
      have hcount := count_full_sync existing_rules new_expressions k hnodup
      rw [hC] at hcount
      rw [hpay]
      simpa using hcount
    · intro r2 hr2 k hk
      rw [hpay] at hr2
      exact pass1_mem_expression existing_rules new_expressions r2 k hnodup hr2 hk
  · have hcp : (synchronize_rules existing_rules new_expressions max_rules false).skipped
        = (computedCreates existing_rules (newExpressionsMap new_expressions)).drop
          (max_rules - (pass1
            (computedDeletes existing_rules (newExpressionsMap new_expressions))
            (computedUpdates existing_rules (newExpressionsMap new_expressions))
            existing_rules).payload.length) := by
      unfold synchronize_rules
      rw [hsk, createPass_eq]
    have hdrop := hcp.symm.trans hskip
    have htake : (computedCreates existing_rules (newExpressionsMap new_expressions)).take
        (max_rules - (pass1
          (computedDeletes existing_rules (newExpressionsMap new_expressions))
          (computedUpdates existing_rules (newExpressionsMap new_expressions))
          existing_rules).payload.length)
        = computedCreates existing_rules (newExpressionsMap new_expressions) :=
      List.take_of_length_le (List.drop_eq_nil_iff.mp hdrop)
    constructor
    · intro k
      rw [hpay, count_managedSeqs_spliceAt, createPass_eq]
      rw [htake, managedSeqs_map_mkCreatedRule]
      exact count_full_sync existing_rules new_expressions k hnodup
    · intro r2 hr2 k hk
      rw [hpay] at hr2
      rcases (mem_spliceAt _ _ _ _).mp hr2 with hmem | hmem
      · exact pass1_mem_expression existing_rules new_expressions r2 k hnodup hmem hk
      · rw [createPass_eq] at hmem
        refine mk_mem_expression new_expressions _ ?_ r2 k hmem hk
        intro j hj
        have hjc : j ∈ computedCreates existing_rules (newExpressionsMap new_expressions) :=
          List.mem_of_mem_take hj
        exact ((mem_computedCreates_iff existing_rules
          (newExpressionsMap new_expressions) j).mp hjc).1

theorem C1_full_sync_end_state_witness :
    (managedSeqs [foreignRule "f", managedRule 1 "new",
        mkCreatedRule (newExpressionsMap ["new", "e2"]) 2]).count 2
      = (if (((newExpressionsMap ["new", "e2"]).lookup 2).isSome = true) then 1 else 0) :=
  (C1_full_sync_end_state [foreignRule "f", managedRule 1 "old", managedRule 3 "z"]
    ["new", "e2"] 10
    [foreignRule "f", managedRule 1 "new", mkCreatedRule (newExpressionsMap ["new", "e2"]) 2]
    (by decide) (by decide) (by decide)).1 2

end CfApply

namespace CfApply

theorem mem_managedSeqs_spliceAt (l : List Rule) (p : Nat) (newRules : List Rule) (k : Nat) :
    k ∈ managedSeqs (spliceAt l p newRules) ↔
      k ∈ managedSeqs l ∨ k ∈ managedSeqs newRules := by
  rw [mem_managedSeqs_iff, mem_managedSeqs_iff, mem_managedSeqs_iff]
  constructor
  · rintro ⟨r, hr, hp⟩
    rcases (mem_spliceAt _ _ _ _).mp hr with h | h
    · exact Or.inl ⟨r, h, hp⟩
    · exact Or.inr ⟨r, h, hp⟩
  · rintro (⟨r, hr, hp⟩ | ⟨r, hr, hp⟩)
    · exact ⟨r, (mem_spliceAt _ _ _ _).mpr (Or.inl hr), hp⟩
    · exact ⟨r, (mem_spliceAt _ _ _ _).mpr (Or.inr hr), hp⟩

theorem mem_managedSeqs_pass1 (tD : List Nat) (tU : List (Nat × String)) (ex : List Rule)
    (k : Nat) :
    k ∈ managedSeqs (pass1 tD tU ex).payload ↔
      k ∈ managedSeqs ex ∧ tD.contains k = false := by
  rw [pass1_payload, managedSeqs_filterMap_pass1, List.mem_filter]
  constructor
  · rintro ⟨h1, h2⟩
    refine ⟨h1, ?_⟩
    cases hc : tD.contains k
    · rfl
    · rw [hc] at h2
      cases h2
  · rintro ⟨h1, h2⟩
    refine ⟨h1, ?_⟩
    rw [h2]
    rfl

theorem filter_match_map_mk_nil (D : List (Nat × String)) (parts : List Nat) (k : Nat)
    (h : k ∉ parts) :
    (parts.map (mkCreatedRule D)).filter
      (fun r => parseManagedLabel r.description == some k) = [] := by
  apply filter_match_eq_nil
  rw [managedSeqs_map_mkCreatedRule]
  exact h

theorem filter_match_map_mk_mem (D : List (Nat × String)) (parts : List Nat) (k : Nat)
    (hn : parts.Nodup) (h : k ∈ parts) :
    (parts.map (mkCreatedRule D)).filter
      (fun r => parseManagedLabel r.description == some k) = [mkCreatedRule D k] := by
  induction parts with
  | nil => cases h
  | cons j t ih =>
    rw [List.map_cons, List.filter_cons]
    rcases List.mem_cons.mp h with rfl | hmem
    · have hb : (parseManagedLabel (mkCreatedRule D k).description == some k) = true := by
        simp [mkCreatedRule_parse]
      simp only [hb, if_true]
      rw [filter_match_map_mk_nil D t k (List.nodup_cons.mp hn).1]
    · by_cases hjk : j = k
      · subst hjk
        exact absurd hmem (List.nodup_cons.mp hn).1
      · have hb : (parseManagedLabel (mkCreatedRule D j).description == some k) = false := by
          simp [mkCreatedRule_parse, hjk]
        simp only [hb, Bool.false_eq_true, if_false]
        exact ih (List.nodup_cons.mp hn).2 hmem

theorem computedCreates_nodup (ex : List Rule) (new_expressions : List String) :
    (computedCreates ex (newExpressionsMap new_expressions)).Nodup :=
  sortNat_nodup _ ((newExpressionsMap_keys_nodup new_expressions).filter _)

theorem pass1_last_match_expression (ex : List Rule) (new_expressions : List String)
    (k : Nat) (e : String) (r : Rule)
    (hD : (newExpressionsMap new_expressions).lookup k = some e)
    (hcontD : (computedDeletes ex (newExpressionsMap new_expressions)).contains k = false)
    (hM2 : ((pass1 (computedDeletes ex (newExpressionsMap new_expressions))
        (computedUpdates ex (newExpressionsMap new_expressions)) ex).payload.filter
          (fun r2 => parseManagedLabel r2.description == some k)).getLast? = some r) :
    r.expression = e := by
  rw [pass1_payload, filter_match_filterMap_pass1 _ _ k hcontD ex, List.getLast?_map] at hM2
  cases hl : (ex.filter (fun r2 => parseManagedLabel r2.description == some k)).getLast? with
  | none =>
    rw [hl] at hM2
    cases hM2
  | some rM =>
    rw [hl] at hM2
    have hM1 : (managedRulesOnCf ex).lookup k = some rM := by
      rw [managedRulesOnCf_lookup]
      exact hl
    injection hM2 with hur
    subst hur
    cases hu : (computedUpdates ex (newExpressionsMap new_expressions)).lookup k with
    | some e2 =>
      have hchar := (partsToUpdate_lookup_some_iff (managedRulesOnCf ex)
        (newExpressionsMap new_expressions) (newExpressionsMap_keys_nodup new_expressions)
        k e2).mp hu
      have he2 : e2 = e := by
        have := hchar.1
        rw [hD] at this
        exact (Option.some.inj this).symm
      subst he2
      rfl
    | none =>
      have hde : (k, e) ∈ newExpressionsMap new_expressions := lookup_mem _ _ _ hD
      exact partsToUpdate_lookup_none (managedRulesOnCf ex)
        (newExpressionsMap new_expressions) k e rM hde hM1 hu

end CfApply

namespace CfApply

theorem skipped_nil_take_all (ex : List Rule) (new_expressions : List String) (mr : Nat)
    (hs : (synchronize_rules ex new_expressions mr false).skipped = [])
    (hsk : (synchronizeCore ex (newExpressionsMap new_expressions) mr false).skipped
      = (createPass (newExpressionsMap new_expressions) mr
          (pass1 (computedDeletes ex (newExpressionsMap new_expressions))
            (computedUpdates ex (newExpressionsMap new_expressions)) ex).payload.length
          (computedCreates ex (newExpressionsMap new_expressions))).2) :
    (computedCreates ex (newExpressionsMap new_expressions)).take
      (mr - (pass1 (computedDeletes ex (newExpressionsMap new_expressions))
        (computedUpdates ex (newExpressionsMap new_expressions)) ex).payload.length)
      = computedCreates ex (newExpressionsMap new_expressions) := by
  unfold synchronize_rules at hs
  rw [hsk, createPass_eq] at hs
  exact List.take_of_length_le (List.drop_eq_nil_iff.mp hs)

theorem accepted_eq_map_mk (ex : List Rule) (new_expressions : List String) (mr : Nat)
    (hs : (synchronize_rules ex new_expressions mr false).skipped = [])
    (hsk : (synchronizeCore ex (newExpressionsMap new_expressions) mr false).skipped
      = (createPass (newExpressionsMap new_expressions) mr
          (pass1 (computedDeletes ex (newExpressionsMap new_expressions))
            (computedUpdates ex (newExpressionsMap new_expressions)) ex).payload.length
          (computedCreates ex (newExpressionsMap new_expressions))).2) :
    (createPass (newExpressionsMap new_expressions) mr
        (pass1 (computedDeletes ex (newExpressionsMap new_expressions))
          (computedUpdates ex (newExpressionsMap new_expressions)) ex).payload.length
        (computedCreates ex (newExpressionsMap new_expressions))).1
      = (computedCreates ex (newExpressionsMap new_expressions)).map
          (mkCreatedRule (newExpressionsMap new_expressions)) := by
  rw [createPass_eq, skipped_nil_take_all ex new_expressions mr hs hsk]

theorem run2_desired_in_payload (ex : List Rule) (new_expressions : List String) (mr : Nat)
    (payload : List Rule)
    (h : synchronize_rules ex new_expressions mr false
      = { write := some payload, skipped := [] })
    (k : Nat) (hk : k ∈ (newExpressionsMap new_expressions).map Prod.fst) :
    k ∈ managedSeqs payload := by
  have hw : (synchronize_rules ex new_expressions mr false).write = some payload := by rw [h]
  have hs : (synchronize_rules ex new_expressions mr false).skipped = [] := by rw [h]
  have hcont : (computedDeletes ex (newExpressionsMap new_expressions)).contains k = false := by
    rw [contains_eq_false_iff]
    intro hm
    exact ((mem_computedDeletes_iff ex (newExpressionsMap new_expressions) k).mp hm).2 hk
  rcases write_some_spec ex (newExpressionsMap new_expressions) mr false payload hw with
    ⟨hcon, _⟩ | ⟨_, hC, hpay, _⟩ | ⟨_, hC, hpay, hsk⟩
  · cases hcon
  · have hep : k ∈ (managedRulesOnCf ex).map Prod.fst := by
      by_contra hnot
      have hmem : k ∈ computedCreates ex (newExpressionsMap new_expressions) :=
        (mem_computedCreates_iff ex (newExpressionsMap new_expressions) k).mpr ⟨hk, hnot⟩
      rw [hC] at hmem
      cases hmem
    rw [hpay]
    exact (mem_managedSeqs_pass1 _ _ _ k).mpr
      ⟨(managedRulesOnCf_keys_iff ex k).mp hep, hcont⟩
  · rw [hpay, mem_managedSeqs_spliceAt]
    by_cases hep : k ∈ (managedRulesOnCf ex).map Prod.fst
    · exact Or.inl ((mem_managedSeqs_pass1 _ _ _ k).mpr
        ⟨(managedRulesOnCf_keys_iff ex k).mp hep, hcont⟩)
    · right
      rw [accepted_eq_map_mk ex new_expressions mr hs hsk, managedSeqs_map_mkCreatedRule]
      exact (mem_computedCreates_iff ex (newExpressionsMap new_expressions) k).mpr ⟨hk, hep⟩

theorem run2_payload_in_desired (ex : List Rule) (new_expressions : List String) (mr : Nat)
    (payload : List Rule)
    (h : synchronize_rules ex new_expressions mr false
      = { write := some payload, skipped := [] })
    (k : Nat) (hk : k ∈ managedSeqs payload) :
    k ∈ (newExpressionsMap new_expressions).map Prod.fst := by
  have hw : (synchronize_rules ex new_expressions mr false).write = some payload := by rw [h]
  have hfromP1 : k ∈ managedSeqs (pass1
      (computedDeletes ex (newExpressionsMap new_expressions))
      (computedUpdates ex (newExpressionsMap new_expressions)) ex).payload →
      k ∈ (newExpressionsMap new_expressions).map Prod.fst := by
    intro hmem
    rcases (mem_managedSeqs_pass1 _ _ _ k).mp hmem with ⟨hex, hcont⟩
    by_contra hnd
    have hdel : k ∈ computedDeletes ex (newExpressionsMap new_expressions) :=
      (mem_computedDeletes_iff ex (newExpressionsMap new_expressions) k).mpr
        ⟨(managedRulesOnCf_keys_iff ex k).mpr hex, hnd⟩
    exact (contains_eq_false_iff _ k).mp hcont hdel
  rcases write_some_spec ex (newExpressionsMap new_expressions) mr false payload hw with
    ⟨hcon, _⟩ | ⟨_, hC, hpay, _⟩ | ⟨_, hC, hpay, hsk⟩
  · cases hcon
  · rw [hpay] at hk
    exact hfromP1 hk
  · rw [hpay, mem_managedSeqs_spliceAt] at hk
    rcases hk with hk | hk
    · exact hfromP1 hk
    · rw [createPass_eq, managedSeqs_map_mkCreatedRule] at hk
      have hktc : k ∈ computedCreates ex (newExpressionsMap new_expressions) :=
        List.mem_of_mem_take hk
      exact ((mem_computedCreates_iff ex
        (newExpressionsMap new_expressions) k).mp hktc).1

theorem getLast_filter_splice_skip_middle (l : List Rule) (p : Nat) (mid : List Rule)
    (k : Nat)
    (hmid : mid.filter (fun r2 => parseManagedLabel r2.description == some k) = []) :
    ((spliceAt l p mid).filter
        (fun r2 => parseManagedLabel r2.description == some k)).getLast?
      = (l.filter (fun r2 => parseManagedLabel r2.description == some k)).getLast? := by
  unfold spliceAt
  rw [List.filter_append, List.filter_append, hmid, List.append_nil,
    ← List.filter_append, List.take_append_drop]

theorem getLast_filter_splice_from_middle (l : List Rule) (p : Nat) (mid : List Rule)
    (k : Nat)
    (hl : l.filter (fun r2 => parseManagedLabel r2.description == some k) = []) :
    ((spliceAt l p mid).filter
        (fun r2 => parseManagedLabel r2.description == some k)).getLast?
      = (mid.filter (fun r2 => parseManagedLabel r2.description == some k)).getLast? := by
  unfold spliceAt
  rw [List.filter_append, List.filter_append]
  have h1 : (l.take p).filter (fun r2 => parseManagedLabel r2.description == some k) = [] := by
    have hsub := (List.take_sublist p l).filter
      (fun r2 => parseManagedLabel r2.description == some k)
    rw [hl] at hsub
    exact List.sublist_nil.mp hsub
  have h2 : (l.drop p).filter (fun r2 => parseManagedLabel r2.description == some k) = [] := by
    have hsub := (List.drop_sublist p l).filter
      (fun r2 => parseManagedLabel r2.description == some k)
    rw [hl] at hsub
    exact List.sublist_nil.mp hsub
  rw [h1, h2, List.nil_append, List.append_nil]

theorem run2_lookup_expression (ex : List Rule) (new_expressions : List String) (mr : Nat)
    (payload : List Rule)
    (h : synchronize_rules ex new_expressions mr false
      = { write := some payload, skipped := [] })
    (k : Nat) (e : String) (r : Rule)
    (hD : (newExpressionsMap new_expressions).lookup k = some e)
    (hM2 : (managedRulesOnCf payload).lookup k = some r) :
    r.expression = e := by
  have hw : (synchronize_rules ex new_expressions mr false).write = some payload := by rw [h]
  have hs : (synchronize_rules ex new_expressions mr false).skipped = [] := by rw [h]
  have hkdp : k ∈ (newExpressionsMap new_expressions).map Prod.fst :=
    List.mem_map_of_mem Prod.fst (lookup_mem _ _ _ hD)
  have hcontD : (computedDeletes ex (newExpressionsMap new_expressions)).contains k
      = false := by
    rw [contains_eq_false_iff]
    intro hm
    exact ((mem_computedDeletes_iff ex (newExpressionsMap new_expressions) k).mp hm).2 hkdp
  rw [managedRulesOnCf_lookup] at hM2
  unfold lastManagedWith at hM2
  rcases write_some_spec ex (newExpressionsMap new_expressions) mr false payload hw with
    ⟨hcon, _⟩ | ⟨_, hC, hpay, _⟩ | ⟨_, hC, hpay, hsk⟩
  · cases hcon
  · rw [hpay] at hM2
    exact pass1_last_match_expression ex new_expressions k e r hD hcontD hM2
  · rw [hpay] at hM2
    rw [accepted_eq_map_mk ex new_expressions mr hs hsk] at hM2
    by_cases hktc : k ∈ computedCreates ex (newExpressionsMap new_expressions)
    · have hknotex : k ∉ managedSeqs ex := by
        intro hmem
        exact ((mem_computedCreates_iff ex (newExpressionsMap new_expressions) k).mp hktc).2
          ((managedRulesOnCf_keys_iff ex k).mpr hmem)
      have hP1nil : ((pass1 (computedDeletes ex (newExpressionsMap new_expressions))
          (computedUpdates ex (newExpressionsMap new_expressions)) ex).payload.filter
            (fun r2 => parseManagedLabel r2.description == some k)) = [] := by
        apply filter_match_eq_nil
        intro hmem
        rcases (mem_managedSeqs_pass1 _ _ _ k).mp hmem with ⟨hex, _⟩
        exact hknotex hex
      rw [getLast_filter_splice_from_middle _ _ _ k hP1nil] at hM2
      rw [filter_match_map_mk_mem (newExpressionsMap new_expressions)
        (computedCreates ex (newExpressionsMap new_expressions)) k
        (computedCreates_nodup ex new_expressions) hktc] at hM2
      rw [List.getLast?_singleton] at hM2
      injection hM2 with hr2
      subst hr2
      have hexp : (mkCreatedRule (newExpressionsMap new_expressions) k).expression
          = ((newExpressionsMap new_expressions).lookup k).getD "" := rfl
      rw [hexp, hD]
      rfl
    · rw [getLast_filter_splice_skip_middle _ _ _ k
        (filter_match_map_mk_nil (newExpressionsMap new_expressions)
          (computedCreates ex (newExpressionsMap new_expressions)) k hktc)] at hM2
      exact pass1_last_match_expression ex new_expressions k e r hD hcontD hM2

end CfApply

namespace CfApply

/-- C7: when the three computed difference sets are all empty the function
reports no change and never reaches the write call, and running full
reconciliation a second time, with the same desired content, against the
payload written by a successful first pass with no capacity skips,
computes three empty sets and performs zero writes. -/
theorem C7_no_change_idempotence :
    (∀ (existing_rules : List Rule) (new_expressions : List String) (max_rules : Nat)
        (update_only : Bool),
      computedUpdates existing_rules (newExpressionsMap new_expressions) = [] →
      computedCreates existing_rules (newExpressionsMap new_expressions) = [] →
      computedDeletes existing_rules (newExpressionsMap new_expressions) = [] →
      synchronize_rules existing_rules new_expressions max_rules update_only
        = { write := none, skipped := [] })
    ∧ (∀ (existing_rules : List Rule) (new_expressions : List String) (max_rules : Nat)
        (payload : List Rule),
      synchronize_rules existing_rules new_expressions max_rules false
        = { write := some payload, skipped := [] } →
      computedUpdates payload (newExpressionsMap new_expressions) = [] ∧
      computedCreates payload (newExpressionsMap new_expressions) = [] ∧
      computedDeletes payload (newExpressionsMap new_expressions) = [] ∧
      synchronize_rules payload new_expressions max_rules false
        = { write := none, skipped := [] }) := by
  constructor
  · intro ex new_expressions mr uo hU hC hDel
    unfold synchronize_rules
    exact synchronizeCore_none_all_empty ex (newExpressionsMap new_expressions) mr uo hU hC hDel
  · intro ex new_expressions mr payload h
    have hU2 : computedUpdates payload (newExpressionsMap new_expressions) = [] := by
      unfold computedUpdates partsToUpdate
      rw [List.filterMap_eq_nil_iff]
      intro p hp
      obtain ⟨k, e⟩ := p
      have hDk : (newExpressionsMap new_expressions).lookup k = some e :=
        lookup_of_mem_nodup _ k e (newExpressionsMap_keys_nodup new_expressions) hp
      show (match (managedRulesOnCf payload).lookup k with
            | some r => if r.expression = e then none else some (k, e)
            | none => none) = none
      cases hM2 : (managedRulesOnCf payload).lookup k with
      | none => rfl
      | some r =>
        have hre := run2_lookup_expression ex new_expressions mr payload h k e r hDk hM2
        show (if r.expression = e then none else some (k, e)) = (none : Option (Nat × String))
        rw [if_pos hre]
    have hC2 : computedCreates payload (newExpressionsMap new_expressions) = [] := by
      unfold computedCreates
      have hfil : ((newExpressionsMap new_expressions).map Prod.fst).filter
          (fun j => !((managedRulesOnCf payload).map Prod.fst).contains j) = [] := by
        rw [List.filter_eq_nil_iff]
        intro j hj hb
        have hmem : j ∈ managedSeqs payload :=
          run2_desired_in_payload ex new_expressions mr payload h j hj
        have hc : ((managedRulesOnCf payload).map Prod.fst).contains j = true :=
          List.elem_iff.mpr ((managedRulesOnCf_keys_iff payload j).mpr hmem)
        rw [hc] at hb
        exact absurd hb (by decide)
      rw [hfil]
      rfl
    have hDel2 : computedDeletes payload (newExpressionsMap new_expressions) = [] := by
      unfold computedDeletes
      rw [List.filter_eq_nil_iff]
      intro j hj hb
      have hmem : j ∈ (newExpressionsMap new_expressions).map Prod.fst :=
        run2_payload_in_desired ex new_expressions mr payload h j
          ((managedRulesOnCf_keys_iff payload j).mp hj)
      have hc : ((newExpressionsMap new_expressions).map Prod.fst).contains j = true :=
        List.elem_iff.mpr hmem
      rw [hc] at hb
      exact absurd hb (by decide)
    refine ⟨hU2, hC2, hDel2, ?_⟩
    unfold synchronize_rules
    exact synchronizeCore_none_all_empty payload (newExpressionsMap new_expressions) mr false
      hU2 hC2 hDel2

theorem C7_no_change_idempotence_witness :
    synchronize_rules [managedRule 1 "new"] ["new"] 5 false
      = { write := none, skipped := [] } :=
  (C7_no_change_idempotence.2 [managedRule 1 "old"] ["new"] 5 [managedRule 1 "new"]
    (by decide)).2.2.2

end CfApply
